import Mathlib

/-!
Verification development for the dflow core (three files:
`src/dflow/dag.py`, `src/dflow/io.py`, `src/dflow/argo_objects.py`).

Python code is shallowly embedded: pure functions become Lean functions,
stateful code becomes explicit state passing, machine integers are `Nat`
with explicit `% 2 ^ w`, fallible code returns `Except`/`Option`, and the
nondeterminism of the local process-pool scheduler is captured by oracle
parameters (`fails` tells which worker raises, `pick` chooses which of the
currently running futures completes next, matching
`next(concurrent.futures.as_completed(futures))`).
-/

namespace Dflow

/-! ### The local debug scheduler (`src/dflow/dag.py`, `DAG.resolve` / `DAG.run`)

Tasks are identified by their index in `DAG.tasks`.  A `Task` carries the
fields the scheduler reads: the dependency list (as indices into the task
list) and the `continue_on_failed` flag.  The per-task `phase` field and the
merged-outputs flag are kept in the scheduler state as functions from task
index, mirroring the attribute assignments `self.tasks[j].phase = ...` and
`self.tasks[j].outputs = deepcopy(t.outputs)`. -/

structure Task where
  dependencies : List Nat
  continue_on_failed : Bool
deriving DecidableEq

instance : Inhabited Task := ⟨⟨[], false⟩⟩

/-- Scheduler state of a `DAG` during `run`: the mutable per-task attributes
and the three bookkeeping lists `self.waiting`, `self.running`,
`self.finished` (lists of task indices, in Python lists of the task objects
themselves).  The `futures` dict of the source always holds exactly the
running tasks, so it is represented by `running`. -/
structure SchedState where
  phases : Nat → String
  outputsMerged : Nat → Bool
  waiting : List Nat
  running : List Nat
  finished : List Nat

/-- Readiness test from `DAG.resolve`: the inner
`for dep in task.dependencies: if dep not in self.finished: ready = False`
loop, i.e. every dependency is a member of `finished`. -/
def taskReady (finished : List Nat) (t : Task) : Bool :=
  t.dependencies.all (fun dep => finished.contains dep)

/-- One pass of `DAG.resolve`, starting the scan of `self.waiting` at
position `i`.  Python's `for task in self.waiting` iterates by position
while the body removes the current element by value
(`self.waiting.remove(task)`), so after a dispatch the scan continues at
position `i + 1` of the *shortened* list (the element right after a
dispatched task is skipped in this pass; later passes see it again).
Dispatch sets the task's phase to `"Pending"`, records the future keyed by
the task's index (`futures[future] = i` with `i = self.tasks.index(task)`),
and appends the task to `self.running`.  The structural `fuel` argument
bounds the number of loop iterations; every iteration decreases
`s.waiting.length - i` by at least one, so the loop exits (the
`i < length` test fails) within `s.waiting.length` iterations and the
fuel given by `DAG.resolve` is never exhausted first
(`resolveFrom_exact` below makes this precise). -/
def resolveFrom (tasks : List Task) : Nat → Nat → SchedState → SchedState
  | 0, _, s => s
  | fuel + 1, i, s =>
    if h : i < s.waiting.length then
      if taskReady s.finished (tasks.getD s.waiting[i] default) then
        resolveFrom tasks fuel (i + 1)
          { s with
            phases := fun m => if m = s.waiting[i] then "Pending" else s.phases m,
            waiting := s.waiting.erase s.waiting[i],
            running := s.running ++ [s.waiting[i]] }
      else
        resolveFrom tasks fuel (i + 1) s
    else s

/-- `DAG.resolve(pool, futures)`: scan `self.waiting` from the start. -/
def DAG.resolve (tasks : List Task) (s : SchedState) : SchedState :=
  resolveFrom tasks s.waiting.length 0 s

/-- Result of `DAG.run`: clean return, `RuntimeError("Task %s failed")`,
the final `assert len(self.finished) == len(self.tasks), "cyclic graph"`
failing, or the model's fuel running out (never happens when the fuel is
the task count, since every loop iteration moves one task to `finished`). -/
inductive RunResult
  | ok (s : SchedState)
  | taskFailed (s : SchedState)
  | cyclicGraph (s : SchedState)
  | outOfFuel (s : SchedState)

/-- One iteration of the `while len(self.running) > 0` body of `DAG.run`,
for a nonempty `running` list: draw the completed future chosen by the
oracle value `k` (any currently running task), pop it (`j = futures.pop`),
and handle the result.  If the worker raised (`fails j`): set phase
`"Failed"`; if the task does not tolerate failure, raise (`.error`,
before the task is moved to `finished` and before any `resolve`).
Otherwise merge the outputs back (success case) or keep them (tolerated
failure), move the task from `running` to `finished`, and re-run
`self.resolve`. -/
def stepOnce (tasks : List Task) (fails : Nat → Bool) (k : Nat)
    (s : SchedState) : Except SchedState SchedState :=
  let j := s.running.getD (k % s.running.length) 0
  if fails j then
    let s1 := { s with phases := fun m => if m = j then "Failed" else s.phases m }
    if !(tasks.getD j default).continue_on_failed then
      .error s1
    else
      .ok (DAG.resolve tasks
        { s1 with running := s1.running.erase j, finished := s1.finished ++ [j] })
  else
    .ok (DAG.resolve tasks
      { s with
        outputsMerged := fun m => if m = j then true else s.outputsMerged m,
        running := s.running.erase j,
        finished := s.finished ++ [j] })

/-- The `while len(self.running) > 0` loop of `DAG.run`, with fuel (the
caller passes the task count, which bounds the number of iterations since
every iteration moves one task to `finished`). -/
def runLoop (tasks : List Task) (fails : Nat → Bool) (pick : Nat → Nat) :
    Nat → SchedState → RunResult
  | 0, s => if s.running.isEmpty then .ok s else .outOfFuel s
  | fuel + 1, s =>
    if s.running.isEmpty then .ok s
    else
      match stepOnce tasks fails (pick fuel) s with
      | .error s1 => .taskFailed s1
      | .ok s1 => runLoop tasks fails pick fuel s1

/-- The initial scheduler state built at the top of `DAG.run`:
`self.waiting = [task for task in self]`, `self.running = []`,
`self.finished = []`.  Modelled from the spec: the initial per-task
`phase` is `"Waiting"` (the `Task` constructor lives in `task.py`, outside
the provided sources; the spec's lifecycle is
Waiting → Pending → Running → {Finished, Failed}). -/
def initState (tasks : List Task) : SchedState :=
  { phases := fun _ => "Waiting"
    outputsMerged := fun _ => false
    waiting := List.range tasks.length
    running := []
    finished := [] }

/-- `DAG.run`: seed the pool via `resolve`, drain completed futures until
`running` is empty, then `assert len(self.finished) == len(self.tasks)`. -/
def DAG.run (tasks : List Task) (fails : Nat → Bool) (pick : Nat → Nat) :
    RunResult :=
  match runLoop tasks fails pick tasks.length
      (DAG.resolve tasks (initState tasks)) with
  | .ok s => if s.finished.length = tasks.length then .ok s else .cyclicGraph s
  | r => r

/-- The list of scheduler states `DAG.run` passes through: the state after
the seeding `resolve`, the state at the top of each loop iteration, and the
state at an abort.  (Same recursion as `runLoop`, instrumented.) -/
def runTraceLoop (tasks : List Task) (fails : Nat → Bool) (pick : Nat → Nat) :
    Nat → SchedState → List SchedState
  | 0, s => [s]
  | fuel + 1, s =>
    if s.running.isEmpty then [s]
    else
      match stepOnce tasks fails (pick fuel) s with
      | .error s1 => [s, s1]
      | .ok s1 => s :: runTraceLoop tasks fails pick fuel s1

/-- All states visited by `DAG.run` with the given oracles. -/
def runTrace (tasks : List Task) (fails : Nat → Bool) (pick : Nat → Nat) :
    List SchedState :=
  runTraceLoop tasks fails pick tasks.length
    (DAG.resolve tasks (initState tasks))

/-! #### Concrete scheduler instances and projections used by the claims -/

/-- Projection of a run result onto the final scheduler state. -/
def RunResult.state : RunResult → SchedState
  | .ok s => s
  | .taskFailed s => s
  | .cyclicGraph s => s
  | .outOfFuel s => s

/-- Did the run return cleanly? -/
def RunResult.isOk : RunResult → Bool
  | .ok _ => true
  | _ => false

/-- Validity of a DAG's dependency set as the spec states it: every
dependency of a contained task is a task of the same DAG, and the
dependency relation is acyclic (witnessed by a rank function). -/
def ValidDeps (tasks : List Task) : Prop :=
  (∀ t ∈ tasks, ∀ d ∈ t.dependencies, d < tasks.length) ∧
  ∃ rank : Nat → Nat, ∀ j, j < tasks.length →
    ∀ d ∈ (tasks.getD j default).dependencies, rank d < rank j

/-- Three mutually independent tasks. -/
def indepTasks3 : List Task := [⟨[], false⟩, ⟨[], false⟩, ⟨[], false⟩]

/-- A single dependency-free task that tolerates failure. -/
def oneTask : List Task := [⟨[], true⟩]

/-- A single dependency-free task that does not tolerate failure. -/
def intolerantTask : List Task := [⟨[], false⟩]

/-- Oracle: no worker raises. -/
def noFailures : Nat → Bool := fun _ => false

/-- Oracle: every worker raises. -/
def allFail : Nat → Bool := fun _ => true

/-- Completion-order oracle always drawing the first running future. -/
def pickFirst : Nat → Nat := fun _ => 0

/-- Completion-order oracle always drawing the second running future. -/
def pickSecond : Nat → Nat := fun _ => 1

/-- The state of the single-intolerant-task DAG after the seeding
`resolve` of `DAG.run`. -/
def seedState1 : SchedState := DAG.resolve intolerantTask (initState intolerantTask)

/-! #### The scheduler invariant -/

/-- Invariant of the scheduler state: the three lists hold distinct task
indices and jointly cover the task list; a task that has been handed to the
pool (or collected) has all dependencies in `finished` and has had its phase
set by the scheduler (`"Pending"` at dispatch, possibly `"Failed"` later). -/
structure Inv (tasks : List Task) (s : SchedState) : Prop where
  waiting_lt : ∀ j ∈ s.waiting, j < tasks.length
  running_lt : ∀ j ∈ s.running, j < tasks.length
  finished_lt : ∀ j ∈ s.finished, j < tasks.length
  nodup : (s.waiting ++ s.running ++ s.finished).Nodup
  cover : ∀ j, j < tasks.length → j ∈ s.waiting ∨ j ∈ s.running ∨ j ∈ s.finished
  deps_finished : ∀ j, j ∈ s.running ∨ j ∈ s.finished →
    ∀ d ∈ (tasks.getD j default).dependencies, d ∈ s.finished
  phase_state : ∀ j, j ∈ s.running ∨ j ∈ s.finished →
    s.phases j = "Pending" ∨ s.phases j = "Failed"

/-! ### Generic Python-dict field tables

Python `dict` assignment keeps the position of an existing key and appends
a new one; lookup returns the first (unique) binding. -/

/-- First binding under `key`. -/
def lookupField {α : Type} : List (String × α) → String → Option α
  | [], _ => none
  | (k, v) :: rest, key => if k = key then some v else lookupField rest key

/-- `d[key] = v` on a Python dict: overwrite in place or append. -/
def storeField {α : Type} : List (String × α) → String → α → List (String × α)
  | [], key, v => [(key, v)]
  | (k, w) :: rest, key, v =>
    if k = key then (key, v) :: rest else (k, w) :: storeField rest key v

/-! ### `AutonamedDict` (`src/dflow/io.py`)

`AutonamedDict.__setitem__` deep-copies the assigned value, overwrites the
copy's `name` attribute with the key, and stores the copy.  Python objects
live on a heap and variables hold references, so the embedding uses an
explicit heap (a list of entries; a reference is an index); `deepcopy`
allocates a fresh cell. -/

/-- A parameter/artifact entry as `AutonamedDict` sees it: a mutable `name`
attribute plus arbitrary further state (opaque payload). -/
structure IOEntry where
  name : String
  payload : Nat
deriving DecidableEq

instance : Inhabited IOEntry := ⟨⟨"", 0⟩⟩

/-- Heap of entry objects; a reference is an index into it. -/
abbrev IOHeap := List IOEntry

/-- Contents of an `AutonamedDict`: key/reference pairs in insertion order. -/
abbrev AutonamedDict := List (String × Nat)

/-- `copy.deepcopy(value)`: allocate a fresh heap cell holding a copy of
the entry `r` points to; return the new heap and the new reference. -/
def deepcopyEntry (h : IOHeap) (r : Nat) : IOHeap × Nat :=
  (h ++ [h.getD r default], h.length)

/-- `value.name = key`: overwrite the `name` attribute of the entry at `r`. -/
def setEntryName (h : IOHeap) (r : Nat) (key : String) : IOHeap :=
  h.set r { h.getD r default with name := key }

/-- `p.attr = ...` in general: replace the entry object `r` points to. -/
def setEntry (h : IOHeap) (r : Nat) (e : IOEntry) : IOHeap :=
  h.set r e

/-- `AutonamedDict.__setitem__(key, value)`:
`value = deepcopy(value); value.name = key; super().__setitem__(key, value)`. -/
def setitem (h : IOHeap) (d : AutonamedDict) (key : String) (r : Nat) :
    IOHeap × AutonamedDict :=
  let p := deepcopyEntry h r
  (setEntryName p.1 p.2 key, storeField d key p.2)

/-- `UserDict.__getitem__(key)`, dereferenced through the heap. -/
def getitem (h : IOHeap) (d : AutonamedDict) (key : String) : Option IOEntry :=
  match lookupField d key with
  | some r => some (h.getD r default)
  | none => none

/-! ### `ArgoObjectDict` / `ArgoObjectList` (`src/dflow/argo_objects.py`)

`ArgoObjectDict.__init__` eagerly replaces every nested mapping/sequence
value by a wrapped object at construction time; scalars stay as they are.
The wrapped objects live on an explicit heap so that the aliasing behaviour
of Python references (`child = root.a; child.b = v`) is represented:
`__getattr__` returns the stored reference, and `__setattr__` mutates the
referenced node in place. -/

/-- A plain parsed JSON-ish value of an engine status document (scalars
are abstracted to a numeric tag). -/
inductive PlainVal
  | scalar (v : Nat)
  | obj (fields : List (String × PlainVal))
  | arr (items : List PlainVal)

/-- A value stored inside a wrapped node: scalars stay unwrapped, nested
mappings/sequences are references to wrapped nodes on the heap. -/
inductive WVal
  | scalar (v : Nat)
  | ref (r : Nat)
deriving DecidableEq

/-- A wrapped node: an `ArgoObjectDict` (field table) or `ArgoObjectList`. -/
inductive WNode
  | dictNode (fields : List (String × WVal))
  | listNode (items : List WVal)

instance : Inhabited WNode := ⟨.dictNode []⟩

/-- Heap of wrapped nodes; a reference is an index into it. -/
abbrev WHeap := List WNode

mutual
/-- Eager wrapping of one value, as done in `ArgoObjectDict.__init__` /
`ArgoObjectList.__init__`: a `dict` or `list` value is recursively wrapped
into a fresh node; anything else is stored as-is. -/
def wrapVal : PlainVal → WHeap → WVal × WHeap
  | .scalar v, h => (.scalar v, h)
  | .obj fs, h =>
    let p := wrapFields fs h
    (.ref p.2.length, p.2 ++ [.dictNode p.1])
  | .arr xs, h =>
    let p := wrapItems xs h
    (.ref p.2.length, p.2 ++ [.listNode p.1])

/-- Wrap the values of a field table in order (`for key, value in
self.items(): ...`). -/
def wrapFields : List (String × PlainVal) → WHeap → List (String × WVal) × WHeap
  | [], h => ([], h)
  | (k, v) :: rest, h =>
    let p := wrapVal v h
    let q := wrapFields rest p.2
    ((k, p.1) :: q.1, q.2)

/-- Wrap the items of a sequence in order (`for i, value in
enumerate(self.data): ...`). -/
def wrapItems : List PlainVal → WHeap → List WVal × WHeap
  | [], h => ([], h)
  | v :: rest, h =>
    let p := wrapVal v h
    let q := wrapItems rest p.2
    (p.1 :: q.1, q.2)
end

/-- `ArgoObjectDict(d)`: wrap all of `d`'s values eagerly, then allocate the
root node; returns the root reference and the heap. -/
def ArgoObjectDict (d : List (String × PlainVal)) (h : WHeap) : Nat × WHeap :=
  let p := wrapFields d h
  (p.2.length, p.2 ++ [.dictNode p.1])

/-- `ArgoObjectDict.__getattr__(key)`: the stored value under `key`, or an
`AttributeError` (`none`) when the key is missing. -/
def getattr (h : WHeap) (r : Nat) (key : String) : Option WVal :=
  match h.getD r default with
  | .dictNode fs => lookupField fs key
  | .listNode _ => none

/-- `ArgoObjectDict.__setattr__(key, value)`: `self.data[key] = value`,
mutating the referenced node in place. -/
def setattr (h : WHeap) (r : Nat) (key : String) (v : WVal) : WHeap :=
  match h.getD r default with
  | .dictNode fs => h.set r (.dictNode (storeField fs key v))
  | .listNode _ => h

/-! ### `get_pod_name` and `fnva` (`src/dflow/argo_objects.py`)

Python strings are sequences of Unicode code points, embedded as
`List Char` so that slicing and `len` are the source's; `str.encode()` is
UTF-8. -/

abbrev PyStr := List Char

def max_k8s_resource_name_length : Nat := 253

def k8s_naming_hash_length : Nat := 10

def FNV_32_PRIME : Nat := 0x01000193

def FNV1_32_INIT : Nat := 0x811c9dc5

/-- `fnva(data, hval_init, fnv_prime, fnv_size)`: FNV-1a over the bytes of
`data`, with every step reduced `% fnv_size`. -/
def fnva (data : List Nat) (hval_init fnv_prime fnv_size : Nat) : Nat :=
  data.foldl (fun hval byte => ((hval ^^^ byte) * fnv_prime) % fnv_size) hval_init

/-- `node_name.encode()`: UTF-8 bytes of a Python string. -/
def strEncode (s : PyStr) : List Nat :=
  (s.map (fun c => (String.utf8EncodeChar c).map UInt8.toNat)).flatten

/-- Decimal rendering of a nonnegative integer, as Python's `"%s" % n`. -/
def natDigits (n : Nat) : PyStr :=
  if n < 10 then [Nat.digitChar n]
  else natDigits (n / 10) ++ [Nat.digitChar (n % 10)]

/-- `get_pod_name(wf_name, node_name, template_name, node_id)`.  The local
variable `pre` is the source's `"%s-%s" % (wf_name, template_name)` value,
truncated to `max_prefix_length - 1` code points when too long. -/
def get_pod_name (wf_name node_name template_name node_id : PyStr) : PyStr :=
  if wf_name = node_name then wf_name
  else
    let pre := wf_name ++ ['-'] ++ template_name
    let max_prefix_length := max_k8s_resource_name_length - k8s_naming_hash_length
    let pre2 := if pre.length > max_prefix_length - 1
      then pre.take (max_prefix_length - 1) else pre
    let hash_val := fnva (strEncode node_name) FNV1_32_INIT FNV_32_PRIME (2 ^ 32)
    pre2 ++ ['-'] ++ natDigits hash_val

/-! ### `ArgoWorkflow.get_step` (`src/dflow/argo_objects.py`) -/

/-- One entry of the workflow status document's node map, carrying the
fields `get_step` consults.  `startedAt` timestamps are modelled as
naturals ordered as the engine's ISO timestamps are; `inputParameters` is
`none` when the node has no `inputs`/`parameters` block. -/
structure NodeStatus where
  displayName : PyStr
  startedAt : Option Nat
  phase : Option PyStr
  type : Option PyStr
  id : PyStr
  inputParameters : Option (List (PyStr × PyStr))
deriving DecidableEq

/-- The module-level `match(n, names)` helper: exact display-name match or
fan-out match (`n.find(name + "(") == 0`). -/
def matchName (n : PyStr) (names : List PyStr) : Bool :=
  names.any (fun name => n == name || (name ++ ['(']).isPrefixOf n)

/-- The `dflow_key` extraction loop of `get_step`: the last input parameter
named `dflow_key`, if any. -/
def stepKey (pars : Option (List (PyStr × PyStr))) : Option PyStr :=
  match pars with
  | none => none
  | some l => l.foldl (fun acc p => if p.1 = "dflow_key".toList then some p.2 else acc) none

/-- The `continue` chain of the `get_step` node loop, as a predicate: the
node has a start time and passes every supplied filter. -/
def keepStep (name key phase id type : Option (List PyStr))
    (step : NodeStatus) : Bool :=
  step.startedAt.isSome &&
  (match name with
   | none => true
   | some ns => matchName step.displayName ns) &&
  (match key with
   | none => true
   | some ks =>
     match stepKey step.inputParameters with
     | some sk => ks.contains sk
     | none => false) &&
  (match phase with
   | none => true
   | some ps =>
     match step.phase with
     | some p => ps.contains p
     | none => false) &&
  (match type with
   | none => true
   | some ts =>
     match step.type with
     | some t => ts.contains t
     | none => false) &&
  (match id with
   | none => true
   | some ids => ids.contains step.id)

/-- `ArgoWorkflow.get_step(name, key, phase, id, type)` after the
single-value-to-list normalisation of its arguments (`none` = filter not
supplied).  Nodes are visited in node-map order, filtered, and the result
sorted by start time (Python's `list.sort` is stable; so is
`List.insertionSort`).  The `ArgoStep(step, workflow-name)` wrapping of
each surviving node only re-keys its IO blocks and does not change the
fields consulted here, so the embedding returns the nodes themselves. -/
def ArgoWorkflow.get_step (nodes : List NodeStatus)
    (name key phase id type : Option (List PyStr)) : List NodeStatus :=
  let step_list := nodes.filter (keepStep name key phase id type)
  List.insertionSort (fun a b => a.startedAt.getD 0 ≤ b.startedAt.getD 0) step_list

/-- A node without a start time, used as a concrete `get_step` input. -/
def nodeNoStart : NodeStatus :=
  { displayName := "x".toList, startedAt := none, phase := none,
    type := none, id := "1".toList, inputParameters := none }

/-- A started node, used as a concrete `get_step` input. -/
def nodeStarted : NodeStatus :=
  { displayName := "x".toList, startedAt := some 5, phase := none,
    type := none, id := "2".toList, inputParameters := none }

/-! ### `ArgoStep.modify_output_artifact` and
`ArgoStep.upload_and_modify_sliced_output_artifact`
(`src/dflow/argo_objects.py`) -/

/-- A slice-manifest record `{dflow_list_item, order}` as stored (JSON
encoded) in the `dflow_<name>_path_list` output parameter; the embedding
keeps the decoded form (`jsonpickle.loads` is the external codec). -/
structure SliceItem where
  dflow_list_item : PyStr
  order : Nat
deriving DecidableEq

/-- An `S3Artifact` handle: object-store key, plus the `local_path` used in
debug mode. -/
structure S3Artifact where
  key : PyStr
  local_path : Option PyStr
deriving DecidableEq

/-- The object-store reference stored on an output artifact
(`ArgoObjectDict(s3.to_dict())`), identified by its key. -/
structure S3Dict where
  key : PyStr
deriving DecidableEq

/-- Archive-strategy value recorded on an output artifact: the explicit
`{"none": {}}` value or a `{"tar": ...}` value. -/
inductive ArchiveFlag
  | noneFlag
  | tarFlag
deriving DecidableEq

/-- One output artifact record of a node status document. -/
structure OutArtifact where
  s3 : Option S3Dict
  oss : Option S3Dict
  archive : Option ArchiveFlag
  local_path : Option PyStr
deriving DecidableEq

/-- The `outputs` block of a node: the name-keyed parameter and artifact
tables `ArgoStep.handle_io` builds.  Only the slice-manifest parameters are
relevant here, so parameter values are decoded slice lists. -/
structure StepOutputs where
  parameters : List (String × List SliceItem)
  artifacts : List (String × OutArtifact)
deriving DecidableEq

/-- A value passed where an `S3Artifact` is expected (the source asserts
`isinstance(s3, S3Artifact)`). -/
inductive ArtifactValue
  | s3val (s : S3Artifact)
  | otherVal
deriving DecidableEq

/-- Python exceptions surfaced by these methods. -/
inductive PyErr
  | assertionError
  | indexError
  | keyError
  | attributeError
deriving DecidableEq

/-- `s3.key[-4:]`: the last four code points (or the whole string when
shorter). -/
def lastChars (n : Nat) (s : PyStr) : PyStr :=
  s.drop (s.length - n)

/-- `ArgoStep.modify_output_artifact(name, s3)`.  `cfgMode` is
`config["mode"]`, `repoType` is `s3_config["repo_type"]`. -/
def ArgoStep.modify_output_artifact (cfgMode repoType : PyStr)
    (outputs : StepOutputs) (name : String) (v : ArtifactValue) :
    Except PyErr StepOutputs :=
  if cfgMode = "debug".toList then
    match v, lookupField outputs.artifacts name with
    | .s3val s, some art =>
      let art2 := { art with local_path := s.local_path }
      .ok { outputs with artifacts := storeField outputs.artifacts name art2 }
    | .s3val _, none => .error .keyError
    | .otherVal, _ => .error .attributeError
  else
    match v with
    | .otherVal => .error .assertionError
    | .s3val s =>
      match lookupField outputs.artifacts name with
      | none => .error .keyError
      | some art =>
        let art1 :=
          if repoType = "s3".toList then { art with s3 := some { key := s.key } }
          else if repoType = "oss".toList then { art with oss := some { key := s.key } }
          else art
        let art2 :=
          if lastChars 4 s.key = ".tgz".toList then
            if art1.archive.isSome then { art1 with archive := none } else art1
          else
            if art1.archive.isNone then { art1 with archive := some .noneFlag } else art1
        .ok { outputs with artifacts := storeField outputs.artifacts name art2 }

/-- `ArgoStep.upload_and_modify_sliced_output_artifact(name, path)` (with
`path` already a list).  `upload` is the external
`upload_artifact(new_path, archive=None)` capability.  Besides the mutated
outputs, the embedding returns the ordered collection handed to `upload`,
the one observable at that capability boundary. -/
def ArgoStep.upload_and_modify_sliced_output_artifact
    (upload : List (Option PyStr) → S3Artifact) (cfgMode repoType : PyStr)
    (outputs : StepOutputs) (name : String) (path : List PyStr) :
    Except PyErr (StepOutputs × List (Option PyStr)) :=
  match lookupField outputs.parameters ("dflow_" ++ name ++ "_path_list") with
  | none => .error .assertionError
  | some path_list =>
    if path_list.length ≠ path.length then .error .assertionError
    else
      let sorted := List.insertionSort (fun a b => a.order ≤ b.order) path_list
      match sorted.getLast? with
      | none => .error .indexError
      | some last =>
        let new_path := (path.zip sorted).foldl
          (fun arr pr => arr.set pr.2.order (some pr.1))
          (List.replicate (last.order + 1) none)
        let s3 := ArtifactValue.s3val (upload new_path)
        (ArgoStep.modify_output_artifact cfgMode repoType outputs name s3).map
          (fun o => (o, new_path))

/-- A concrete output artifact already carrying a `{"tar": ...}` archive
value. -/
def tarArt : OutArtifact :=
  { s3 := none, oss := none, archive := some .tarFlag, local_path := none }

/-- Concrete step outputs with one artifact `"art"` carrying `tarArt`. -/
def tarOutputs : StepOutputs :=
  { parameters := [], artifacts := [("art", tarArt)] }

/-- Concrete step outputs declaring a sliced artifact `"art"` whose slice
manifest lists orders `[2, 0, 1]` (the spec's example). -/
def sliceOutputs : StepOutputs :=
  { parameters := [("dflow_art_path_list",
      [⟨"f2".toList, 2⟩, ⟨"f0".toList, 0⟩, ⟨"f1".toList, 1⟩])],
    artifacts := [("art", tarArt)] }

/-! #### Facts about `resolve` -/

theorem taskReady_iff (finished : List Nat) (t : Task) :
    taskReady finished t = true ↔ ∀ d ∈ t.dependencies, d ∈ finished := by
  simp [taskReady]

theorem resolveFrom_finished (tasks : List Task) :
    ∀ (fuel i : Nat) (s : SchedState),
    (resolveFrom tasks fuel i s).finished = s.finished := by
  intro fuel
  induction fuel with
  | zero => intro i s; rfl
  | succ fuel ih =>
    intro i s
    rw [resolveFrom]
    by_cases h : i < s.waiting.length
    · rw [dif_pos h]
      by_cases hr : taskReady s.finished (tasks.getD s.waiting[i] default)
      · rw [if_pos hr]; exact ih (i + 1) _
      · rw [if_neg hr]; exact ih (i + 1) s
    · rw [dif_neg h]

theorem resolveFrom_outputsMerged (tasks : List Task) :
    ∀ (fuel i : Nat) (s : SchedState),
    (resolveFrom tasks fuel i s).outputsMerged = s.outputsMerged := by
  intro fuel
  induction fuel with
  | zero => intro i s; rfl
  | succ fuel ih =>
    intro i s
    rw [resolveFrom]
    by_cases h : i < s.waiting.length
    · rw [dif_pos h]
      by_cases hr : taskReady s.finished (tasks.getD s.waiting[i] default)
      · rw [if_pos hr]; exact ih (i + 1) _
      · rw [if_neg hr]; exact ih (i + 1) s
    · rw [dif_neg h]

theorem resolveFrom_waiting_subset (tasks : List Task) :
    ∀ (fuel i : Nat) (s : SchedState),
    (resolveFrom tasks fuel i s).waiting ⊆ s.waiting := by
  intro fuel
  induction fuel with
  | zero => intro i s x hx; exact hx
  | succ fuel ih =>
    intro i s
    rw [resolveFrom]
    by_cases h : i < s.waiting.length
    · rw [dif_pos h]
      by_cases hr : taskReady s.finished (tasks.getD s.waiting[i] default)
      · rw [if_pos hr]
        exact fun x hx => List.erase_subset _ _ (ih (i + 1) _ hx)
      · rw [if_neg hr]; exact ih (i + 1) s
    · rw [dif_neg h]; exact fun x hx => hx

/-- The dispatching behaviour of one `resolve` pass: it appends some list
`ds` of dispatched tasks to `running`; every dispatched task was waiting and
ready, and ends up `"Pending"`; nothing else has its phase touched. -/
theorem resolveFrom_spec (tasks : List Task) :
    ∀ (fuel i : Nat) (s : SchedState),
    ∃ ds : List Nat,
      (resolveFrom tasks fuel i s).running = s.running ++ ds ∧
      (∀ x ∈ ds, x ∈ s.waiting ∧
        taskReady s.finished (tasks.getD x default) = true ∧
        (resolveFrom tasks fuel i s).phases x = "Pending") ∧
      (∀ x, x ∉ ds → (resolveFrom tasks fuel i s).phases x = s.phases x) := by
  intro fuel
  induction fuel with
  | zero =>
    intro i s
    refine ⟨[], by simp [resolveFrom], ?_, ?_⟩
    · intro x hx
      exact absurd hx (List.not_mem_nil x)
    · intro x _
      rfl
  | succ fuel ih =>
    intro i s
    rw [resolveFrom]
    by_cases h : i < s.waiting.length
    · rw [dif_pos h]
      by_cases hr : taskReady s.finished (tasks.getD s.waiting[i] default)
      · rw [if_pos hr]
        obtain ⟨ds, hrun, hmem, hout⟩ := ih (i + 1)
          { s with
            phases := fun m => if m = s.waiting[i] then "Pending" else s.phases m,
            waiting := s.waiting.erase s.waiting[i],
            running := s.running ++ [s.waiting[i]] }
        refine ⟨s.waiting[i] :: ds, ?_, ?_, ?_⟩
        · rw [hrun]; simp
        · intro x hx
          rcases List.mem_cons.mp hx with rfl | hx2
          · refine ⟨List.getElem_mem h, hr, ?_⟩
            by_cases hxds : s.waiting[i] ∈ ds
            · exact (hmem _ hxds).2.2
            · rw [hout _ hxds]; simp
          · obtain ⟨hw, hr2, hp⟩ := hmem x hx2
            exact ⟨List.erase_subset _ _ hw, hr2, hp⟩
        · intro x hx
          have hx1 : x ≠ s.waiting[i] := fun hh => hx (hh ▸ List.mem_cons_self _ _)
          have hx2 : x ∉ ds := fun hh => hx (List.mem_cons_of_mem _ hh)
          rw [hout x hx2]; simp [hx1]
      · rw [if_neg hr]; exact ih (i + 1) s
    · rw [dif_neg h]
      exact ⟨[], by simp, by simp, by simp⟩

/-- Removing `j` from one list and appending it to another is a permutation
of the original pair of lists. -/
theorem erase_append_singleton_perm {j : Nat} {a b : List Nat} (hj : j ∈ a) :
    (a.erase j ++ (b ++ [j])).Perm (a ++ b) := by
  have h1 : (a.erase j ++ (b ++ [j])).Perm (a.erase j ++ ([j] ++ b)) :=
    List.Perm.append_left _ List.perm_append_comm
  have h2 : a.erase j ++ ([j] ++ b) = (a.erase j ++ [j]) ++ b :=
    (List.append_assoc _ _ _).symm
  have h3 : ((a.erase j ++ [j]) ++ b).Perm ((j :: a.erase j) ++ b) :=
    List.Perm.append_right _ List.perm_append_comm
  have h4 : ((j :: a.erase j) ++ b).Perm (a ++ b) :=
    List.Perm.append_right _ (List.perm_cons_erase hj).symm
  exact h1.trans (by rw [h2]; exact h3.trans h4)

theorem resolveFrom_perm (tasks : List Task) :
    ∀ (fuel i : Nat) (s : SchedState),
    ((resolveFrom tasks fuel i s).waiting ++ (resolveFrom tasks fuel i s).running).Perm
      (s.waiting ++ s.running) := by
  intro fuel
  induction fuel with
  | zero => intro i s; exact List.Perm.refl _
  | succ fuel ih =>
    intro i s
    rw [resolveFrom]
    by_cases h : i < s.waiting.length
    · rw [dif_pos h]
      by_cases hr : taskReady s.finished (tasks.getD s.waiting[i] default)
      · rw [if_pos hr]
        exact (ih (i + 1) _).trans (erase_append_singleton_perm (List.getElem_mem h))
      · rw [if_neg hr]; exact ih (i + 1) s
    · rw [dif_neg h]

/-- The fuel `DAG.resolve` passes to `resolveFrom` is never the reason the
scan stops: any two sufficient fuels give the same result, because every
iteration decreases `s.waiting.length - i` by at least one. -/
theorem resolveFrom_succ_of_le (tasks : List Task) :
    ∀ (fuel i : Nat) (s : SchedState), s.waiting.length ≤ fuel + i →
    resolveFrom tasks (fuel + 1) i s = resolveFrom tasks fuel i s := by
  intro fuel
  induction fuel with
  | zero =>
    intro i s hle
    have h : ¬i < s.waiting.length := by omega
    show (if h : i < s.waiting.length then
        if taskReady s.finished (tasks.getD s.waiting[i] default) then
          resolveFrom tasks 0 (i + 1)
            { s with
              phases := fun m => if m = s.waiting[i] then "Pending" else s.phases m,
              waiting := s.waiting.erase s.waiting[i],
              running := s.running ++ [s.waiting[i]] }
        else resolveFrom tasks 0 (i + 1) s
      else s) = resolveFrom tasks 0 i s
    rw [dif_neg h]
    rfl
  | succ fuel ih =>
    intro i s hle
    rw [resolveFrom]
    by_cases h : i < s.waiting.length
    · rw [dif_pos h]
      by_cases hr : taskReady s.finished (tasks.getD s.waiting[i] default)
      · rw [if_pos hr]
        rw [show resolveFrom tasks (fuel + 1) i s =
          if h : i < s.waiting.length then
            if taskReady s.finished (tasks.getD s.waiting[i] default) then
              resolveFrom tasks fuel (i + 1)
                { s with
                  phases := fun m => if m = s.waiting[i] then "Pending" else s.phases m,
                  waiting := s.waiting.erase s.waiting[i],
                  running := s.running ++ [s.waiting[i]] }
            else resolveFrom tasks fuel (i + 1) s
          else s from rfl]
        rw [dif_pos h, if_pos hr]
        apply ih
        have hmem : s.waiting[i] ∈ s.waiting := List.getElem_mem h
        have h2 := List.length_erase_add_one hmem
        show (s.waiting.erase s.waiting[i]).length ≤ fuel + (i + 1)
        omega
      · rw [if_neg hr]
        rw [show resolveFrom tasks (fuel + 1) i s =
          if h : i < s.waiting.length then
            if taskReady s.finished (tasks.getD s.waiting[i] default) then
              resolveFrom tasks fuel (i + 1)
                { s with
                  phases := fun m => if m = s.waiting[i] then "Pending" else s.phases m,
                  waiting := s.waiting.erase s.waiting[i],
                  running := s.running ++ [s.waiting[i]] }
            else resolveFrom tasks fuel (i + 1) s
          else s from rfl]
        rw [dif_pos h, if_neg hr]
        exact ih (i + 1) s (by omega)
    · rw [dif_neg h]
      rw [show resolveFrom tasks (fuel + 1) i s =
        if h : i < s.waiting.length then
          if taskReady s.finished (tasks.getD s.waiting[i] default) then
            resolveFrom tasks fuel (i + 1)
              { s with
                phases := fun m => if m = s.waiting[i] then "Pending" else s.phases m,
                waiting := s.waiting.erase s.waiting[i],
                running := s.running ++ [s.waiting[i]] }
          else resolveFrom tasks fuel (i + 1) s
        else s from rfl]
      rw [dif_neg h]

/-- Fuel irrelevance: any fuel at least `s.waiting.length - i` gives the
result of the unbounded scan. -/
theorem resolveFrom_exact (tasks : List Task) :
    ∀ (k fuel i : Nat) (s : SchedState), s.waiting.length ≤ fuel + i →
    resolveFrom tasks (fuel + k) i s = resolveFrom tasks fuel i s := by
  intro k
  induction k with
  | zero => intro fuel i s _; rfl
  | succ k ih =>
    intro fuel i s hle
    have h1 : fuel + (k + 1) = (fuel + k) + 1 := by omega
    rw [h1, resolveFrom_succ_of_le tasks (fuel + k) i s (by omega)]
    exact ih fuel i s hle

/-- If some still-waiting task (at or after scan position `i`) is ready and
the fuel covers the rest of the scan, the `resolve` pass dispatches at
least one task. -/
theorem resolveFrom_progress (tasks : List Task) :
    ∀ (fuel i : Nat) (s : SchedState), s.waiting.length ≤ fuel + i →
    (∃ x ∈ s.waiting.drop i, taskReady s.finished (tasks.getD x default) = true) →
    s.running.length < (resolveFrom tasks fuel i s).running.length := by
  intro fuel
  induction fuel with
  | zero =>
    intro i s hle hx
    obtain ⟨x, hmem, -⟩ := hx
    rw [List.drop_eq_nil_of_le (by omega)] at hmem
    exact absurd hmem (List.not_mem_nil x)
  | succ fuel ih =>
    intro i s hle hx
    rw [resolveFrom]
    by_cases h : i < s.waiting.length
    · rw [dif_pos h]
      by_cases hr : taskReady s.finished (tasks.getD s.waiting[i] default)
      · rw [if_pos hr]
        obtain ⟨ds, hrun, -, -⟩ := resolveFrom_spec tasks fuel (i + 1)
          { s with
            phases := fun m => if m = s.waiting[i] then "Pending" else s.phases m,
            waiting := s.waiting.erase s.waiting[i],
            running := s.running ++ [s.waiting[i]] }
        rw [hrun]
        simp
      · rw [if_neg hr]
        apply ih (i + 1) s (by omega)
        obtain ⟨x, hmem, hrx⟩ := hx
        rw [List.drop_eq_getElem_cons h] at hmem
        rcases List.mem_cons.mp hmem with rfl | hmem2
        · exact absurd hrx hr
        · exact ⟨x, hmem2, hrx⟩
    · rw [dif_neg h]
      obtain ⟨x, hmem, -⟩ := hx
      rw [List.drop_eq_nil_of_le (by omega)] at hmem
      exact absurd hmem (List.not_mem_nil x)

theorem inv_resolveFrom (tasks : List Task) (fuel i : Nat) (s : SchedState)
    (hs : Inv tasks s) : Inv tasks (resolveFrom tasks fuel i s) := by
  obtain ⟨ds, hrun, hmem, hout⟩ := resolveFrom_spec tasks fuel i s
  have hperm := resolveFrom_perm tasks fuel i s
  have hfin := resolveFrom_finished tasks fuel i s
  constructor
  · exact fun j hj => hs.waiting_lt j (resolveFrom_waiting_subset tasks fuel i s hj)
  · intro j hj
    rw [hrun] at hj
    rcases List.mem_append.mp hj with hj | hj
    · exact hs.running_lt j hj
    · exact hs.waiting_lt j (hmem j hj).1
  · intro j hj; rw [hfin] at hj; exact hs.finished_lt j hj
  · have h1 : ((resolveFrom tasks fuel i s).waiting ++ (resolveFrom tasks fuel i s).running ++
        (resolveFrom tasks fuel i s).finished).Perm (s.waiting ++ s.running ++ s.finished) := by
      rw [hfin]
      exact hperm.append_right s.finished
    exact h1.nodup_iff.mpr hs.nodup
  · intro j hj
    rcases hs.cover j hj with hw | hr | hf
    · rcases List.mem_append.mp (hperm.mem_iff.mpr (List.mem_append_left _ hw)) with h | h
      · exact Or.inl h
      · exact Or.inr (Or.inl h)
    · rcases List.mem_append.mp (hperm.mem_iff.mpr (List.mem_append_right _ hr)) with h | h
      · exact Or.inl h
      · exact Or.inr (Or.inl h)
    · right; right; rw [hfin]; exact hf
  · intro j hj d hd
    rw [hfin]
    rcases hj with hjr | hjf
    · rw [hrun] at hjr
      rcases List.mem_append.mp hjr with h | h
      · exact hs.deps_finished j (Or.inl h) d hd
      · exact (taskReady_iff _ _).mp (hmem j h).2.1 d hd
    · rw [hfin] at hjf
      exact hs.deps_finished j (Or.inr hjf) d hd
  · intro j hj
    by_cases hjds : j ∈ ds
    · exact Or.inl (hmem j hjds).2.2
    · rw [hout j hjds]
      apply hs.phase_state
      rcases hj with hjr | hjf
      · rw [hrun] at hjr
        rcases List.mem_append.mp hjr with h | h
        · exact Or.inl h
        · exact absurd h hjds
      · rw [hfin] at hjf; exact Or.inr hjf

theorem running_getD_mem (s : SchedState) (hne : s.running ≠ []) (k : Nat) :
    s.running.getD (k % s.running.length) 0 ∈ s.running := by
  have hlen : 0 < s.running.length := List.length_pos.mpr hne
  have hlt : k % s.running.length < s.running.length := Nat.mod_lt _ hlen
  rw [List.getD_eq_getElem _ _ hlt]
  exact List.getElem_mem hlt

/-- Popping a completed task `j` out of `running` into `finished` preserves
the invariant, for any rewrite of the per-task attributes that touches only
`j` and leaves its phase dispatched. -/
theorem inv_popped (tasks : List Task) (s : SchedState) (hs : Inv tasks s)
    (j : Nat) (hj : j ∈ s.running)
    (phasesNew : Nat → String) (outNew : Nat → Bool)
    (hph : ∀ m, m ≠ j → phasesNew m = s.phases m)
    (hphj : phasesNew j = "Pending" ∨ phasesNew j = "Failed") :
    Inv tasks { phases := phasesNew, outputsMerged := outNew,
                waiting := s.waiting, running := s.running.erase j,
                finished := s.finished ++ [j] } := by
  constructor
  · exact hs.waiting_lt
  · exact fun m hm => hs.running_lt m (List.erase_subset _ _ hm)
  · intro m hm
    rcases List.mem_append.mp hm with h | h
    · exact hs.finished_lt m h
    · rw [List.mem_singleton.mp h]
      exact hs.running_lt j hj
  · have hp : ((s.waiting ++ s.running.erase j) ++ (s.finished ++ [j])).Perm
        ((s.waiting ++ s.running) ++ s.finished) := by
      rw [List.append_assoc s.waiting (s.running.erase j),
        List.append_assoc s.waiting s.running]
      exact List.Perm.append_left _ (erase_append_singleton_perm hj)
    exact hp.nodup_iff.mpr hs.nodup
  · intro m hm
    rcases hs.cover m hm with hw | hr | hf
    · exact Or.inl hw
    · by_cases hmj : m = j
      · subst hmj
        exact Or.inr (Or.inr (List.mem_append_right _ (List.mem_singleton.mpr rfl)))
      · exact Or.inr (Or.inl ((List.mem_erase_of_ne hmj).mpr hr))
    · exact Or.inr (Or.inr (List.mem_append_left _ hf))
  · intro m hm d hd
    have hmem : m ∈ s.running ∨ m ∈ s.finished := by
      rcases hm with h | h
      · exact Or.inl (List.erase_subset _ _ h)
      · rcases List.mem_append.mp h with h | h
        · exact Or.inr h
        · rw [List.mem_singleton.mp h]; exact Or.inl hj
    exact List.mem_append_left _ (hs.deps_finished m hmem d hd)
  · intro m hm
    dsimp only
    by_cases hmj : m = j
    · subst hmj; exact hphj
    · rw [hph m hmj]
      apply hs.phase_state
      rcases hm with h | h
      · exact Or.inl (List.erase_subset _ _ h)
      · rcases List.mem_append.mp h with h | h
        · exact Or.inr h
        · exact absurd (List.mem_singleton.mp h) hmj

/-- Unfolding of `stepOnce` with the drawn task index spelled out. -/
theorem stepOnce_eq (tasks : List Task) (fails : Nat → Bool) (k : Nat)
    (s : SchedState) (j : Nat) (hj : j = s.running.getD (k % s.running.length) 0) :
    stepOnce tasks fails k s =
      if fails j then
        if !(tasks.getD j default).continue_on_failed then
          .error { s with phases := fun m => if m = j then "Failed" else s.phases m }
        else
          .ok (DAG.resolve tasks
            { phases := fun m => if m = j then "Failed" else s.phases m,
              outputsMerged := s.outputsMerged,
              waiting := s.waiting,
              running := s.running.erase j,
              finished := s.finished ++ [j] })
      else
        .ok (DAG.resolve tasks
          { phases := s.phases,
            outputsMerged := fun m => if m = j then true else s.outputsMerged m,
            waiting := s.waiting,
            running := s.running.erase j,
            finished := s.finished ++ [j] }) := by
  subst hj; rfl

theorem inv_stepOnce (tasks : List Task) (fails : Nat → Bool) (k : Nat)
    (s : SchedState) (hne : s.running ≠ []) (hs : Inv tasks s) :
    (∀ s1, stepOnce tasks fails k s = .ok s1 → Inv tasks s1) ∧
    (∀ s1, stepOnce tasks fails k s = .error s1 → Inv tasks s1) := by
  have hjr := running_getD_mem s hne k
  rw [stepOnce_eq tasks fails k s (s.running.getD (k % s.running.length) 0) rfl]
  by_cases hf : fails (s.running.getD (k % s.running.length) 0)
  · rw [if_pos hf]
    by_cases hc : (tasks.getD (s.running.getD (k % s.running.length) 0)
        default).continue_on_failed
    · simp only [hc, Bool.not_true, Bool.false_eq_true, if_false]
      constructor
      · intro s1 h1
        cases h1
        apply inv_resolveFrom
        exact inv_popped tasks s hs _ hjr
          (fun m => if m = s.running.getD (k % s.running.length) 0
            then "Failed" else s.phases m)
          s.outputsMerged
          (fun m hm => if_neg hm)
          (Or.inr (if_pos rfl))
      · intro s1 h1; cases h1
    · have hc2 : (tasks.getD (s.running.getD (k % s.running.length) 0)
          default).continue_on_failed = false := by
        revert hc; cases (tasks.getD (s.running.getD (k % s.running.length) 0)
          default).continue_on_failed <;> simp
      simp only [hc2, Bool.not_false, if_true]
      constructor
      · intro s1 h1; cases h1
      · intro s1 h1
        cases h1
        constructor
        · exact hs.waiting_lt
        · exact hs.running_lt
        · exact hs.finished_lt
        · exact hs.nodup
        · exact hs.cover
        · exact hs.deps_finished
        · intro m hm
          dsimp only
          by_cases hmj : m = s.running.getD (k % s.running.length) 0
          · rw [if_pos hmj]; right; rfl
          · rw [if_neg hmj]
            exact hs.phase_state m hm
  · rw [if_neg hf]
    constructor
    · intro s1 h1
      cases h1
      apply inv_resolveFrom
      exact inv_popped tasks s hs _ hjr s.phases
        (fun m => if m = s.running.getD (k % s.running.length) 0
          then true else s.outputsMerged m)
        (fun m _ => rfl)
        (hs.phase_state _ (Or.inl hjr))
    · intro s1 h1; cases h1

theorem inv_runLoop (tasks : List Task) (fails : Nat → Bool) (pick : Nat → Nat) :
    ∀ fuel s, Inv tasks s →
    ∀ s1, runLoop tasks fails pick fuel s = .ok s1 →
      Inv tasks s1 ∧ s1.running = [] := by
  intro fuel
  induction fuel with
  | zero =>
    intro s hs s1 h
    unfold runLoop at h
    by_cases he : s.running.isEmpty
    · rw [if_pos he] at h
      cases h
      exact ⟨hs, List.isEmpty_iff.mp he⟩
    · rw [if_neg he] at h
      cases h
  | succ fuel ih =>
    intro s hs s1 h
    unfold runLoop at h
    by_cases he : s.running.isEmpty
    · rw [if_pos he] at h
      cases h
      exact ⟨hs, List.isEmpty_iff.mp he⟩
    · rw [if_neg he] at h
      have hne : s.running ≠ [] := fun hh => he (by simp [hh])
      cases hst : stepOnce tasks fails (pick fuel) s with
      | error s2 => rw [hst] at h; cases h
      | ok s2 =>
        rw [hst] at h
        exact ih s2 ((inv_stepOnce tasks fails (pick fuel) s hne hs).1 s2 hst) s1 h

theorem inv_runTraceLoop (tasks : List Task) (fails : Nat → Bool) (pick : Nat → Nat) :
    ∀ fuel s, Inv tasks s →
    ∀ s1 ∈ runTraceLoop tasks fails pick fuel s, Inv tasks s1 := by
  intro fuel
  induction fuel with
  | zero =>
    intro s hs s1 h
    unfold runTraceLoop at h
    rw [List.mem_singleton.mp h]
    exact hs
  | succ fuel ih =>
    intro s hs s1 h
    unfold runTraceLoop at h
    by_cases he : s.running.isEmpty
    · rw [if_pos he] at h
      rw [List.mem_singleton.mp h]
      exact hs
    · rw [if_neg he] at h
      have hne : s.running ≠ [] := fun hh => he (by simp [hh])
      cases hst : stepOnce tasks fails (pick fuel) s with
      | error s2 =>
        rw [hst] at h
        rcases List.mem_cons.mp h with rfl | h2
        · exact hs
        · rw [List.mem_singleton.mp h2]
          exact (inv_stepOnce tasks fails (pick fuel) s hne hs).2 s2 hst
      | ok s2 =>
        rw [hst] at h
        rcases List.mem_cons.mp h with rfl | h2
        · exact hs
        · exact ih s2 ((inv_stepOnce tasks fails (pick fuel) s hne hs).1 s2 hst) s1 h2

theorem inv_initState (tasks : List Task) : Inv tasks (initState tasks) := by
  constructor
  · intro j hj
    simpa [initState] using hj
  · intro j hj; simp [initState] at hj
  · intro j hj; simp [initState] at hj
  · simp [initState, List.nodup_range]
  · intro j hj
    exact Or.inl (by simpa [initState] using hj)
  · intro j hj; simp [initState] at hj
  · intro j hj; simp [initState] at hj

/-- Pigeonhole: a duplicate-free list of `n` naturals all below `n` contains
every natural below `n`. -/
theorem mem_of_nodup_length (l : List Nat) (n : Nat) (hn : l.Nodup)
    (hlt : ∀ x ∈ l, x < n) (hlen : l.length = n) : ∀ j, j < n → j ∈ l := by
  intro j hj
  have hsub : l.toFinset ⊆ Finset.range n := by
    intro x hx
    rw [Finset.mem_range]
    exact hlt x (List.mem_toFinset.mp hx)
  have hcard : l.toFinset.card = n := by
    rw [List.toFinset_card_of_nodup hn, hlen]
  have heq : l.toFinset = Finset.range n :=
    Finset.eq_of_subset_of_card_le hsub (by rw [hcard, Finset.card_range])
  rw [← List.mem_toFinset, heq, Finset.mem_range]
  exact hj

/-- A `resolve` pass after popping a failed-but-tolerated task: the popped
task's phase is untouched (it is not waiting), `finished` is untouched, and
if some waiting task is ready the pass dispatches at least one task. -/
theorem resolve_after_pop (tasks : List Task) (s2 : SchedState) (j : Nat)
    (hjw : j ∉ s2.waiting) (hphase : s2.phases j = "Failed") :
    (resolveFrom tasks s2.waiting.length 0 s2).phases j = "Failed" ∧
    (resolveFrom tasks s2.waiting.length 0 s2).finished = s2.finished ∧
    ((∃ x ∈ s2.waiting, taskReady s2.finished (tasks.getD x default) = true) →
      s2.running.length < (resolveFrom tasks s2.waiting.length 0 s2).running.length) := by
  obtain ⟨ds, hrun, hmem, hout⟩ := resolveFrom_spec tasks s2.waiting.length 0 s2
  have hjds : j ∉ ds := fun hh => hjw (hmem j hh).1
  refine ⟨by rw [hout j hjds]; exact hphase,
    resolveFrom_finished tasks s2.waiting.length 0 s2, ?_⟩
  intro hx
  apply resolveFrom_progress tasks s2.waiting.length 0 s2 (by omega)
  simpa using hx

theorem validDeps_of_no_dependencies (tasks : List Task)
    (hdeps : ∀ t ∈ tasks, t.dependencies = []) : ValidDeps tasks := by
  constructor
  · intro t ht d hd
    rw [hdeps t ht] at hd
    exact absurd hd (List.not_mem_nil d)
  · refine ⟨id, fun j hj d hd => ?_⟩
    have hmem : tasks.getD j default ∈ tasks := by
      rw [List.getD_eq_getElem _ _ hj]
      exact List.getElem_mem hj
    rw [hdeps _ hmem] at hd
    exact absurd hd (List.not_mem_nil d)

/-! ### Claim theorems about the scheduler -/

/-- C1: in every state the local scheduler (`DAG.run`) passes through, a
task that has left the waiting list (i.e. was dispatched to the worker pool)
has every one of its dependencies in the scheduler's `finished` list; and
there is no guaranteed relative order among tasks whose dependencies are all
finished: the same three independent tasks reach `finished` as `[0, 2, 1]`
under one completion order and as `[2, 1, 0]` under another. -/
theorem C1_no_dispatch_before_deps_finished :
    (∀ (tasks : List Task) (fails : Nat → Bool) (pick : Nat → Nat)
        (s : SchedState), s ∈ runTrace tasks fails pick →
      ∀ j, j < tasks.length → j ∉ s.waiting →
        ∀ d ∈ (tasks.getD j default).dependencies, d ∈ s.finished) ∧
    ((DAG.run indepTasks3 noFailures pickFirst).isOk = true ∧
      (DAG.run indepTasks3 noFailures pickSecond).isOk = true ∧
      (DAG.run indepTasks3 noFailures pickFirst).state.finished = [0, 2, 1] ∧
      (DAG.run indepTasks3 noFailures pickSecond).state.finished = [2, 1, 0] ∧
      ([0, 2, 1] : List Nat) ≠ [2, 1, 0]) := by
  constructor
  · intro tasks fails pick s hmem j hj hjw d hd
    have hinv : Inv tasks s := inv_runTraceLoop tasks fails pick tasks.length _
      (inv_resolveFrom tasks _ 0 _ (inv_initState tasks)) s hmem
    rcases hinv.cover j hj with hw | hr | hf
    · exact absurd hw hjw
    · exact hinv.deps_finished j (Or.inl hr) d hd
    · exact hinv.deps_finished j (Or.inr hf) d hd
  · exact ⟨rfl, rfl, by decide, by decide, by decide⟩

/-- Witness for C1 at a concrete input: the final trace state of a
one-task run has the task out of `waiting` with its (empty) dependency
list contained in `finished`. -/
theorem C1_no_dispatch_before_deps_finished_witness :
    1 < (runTrace oneTask noFailures pickFirst).length ∧
    0 < oneTask.length ∧
    0 ∉ ((runTrace oneTask noFailures pickFirst).getD 1 (initState oneTask)).waiting ∧
    ∀ d ∈ (oneTask.getD 0 default).dependencies,
      d ∈ ((runTrace oneTask noFailures pickFirst).getD 1 (initState oneTask)).finished := by
  refine ⟨by decide, by decide, by decide, ?_⟩
  have hlen : 1 < (runTrace oneTask noFailures pickFirst).length := by decide
  have hmem : (runTrace oneTask noFailures pickFirst).getD 1 (initState oneTask)
      ∈ runTrace oneTask noFailures pickFirst := by
    rw [List.getD_eq_getElem _ _ hlen]
    exact List.getElem_mem hlen
  exact C1_no_dispatch_before_deps_finished.1 oneTask noFailures pickFirst _ hmem 0
    (by decide) (by decide)

/-- C2 counterexample: a valid one-task DAG whose run returns cleanly, yet
the task's phase is `"Pending"`, not `"Finished"` or `"Failed"` — `DAG.run`
copies only `outputs` back from the worker and never writes `"Finished"`
into the orchestrating process's task record. -/
theorem C2_counterexample :
    ValidDeps oneTask ∧
    (DAG.run oneTask noFailures pickFirst).isOk = true ∧
    (DAG.run oneTask noFailures pickFirst).state.phases 0 = "Pending" ∧
    ¬((DAG.run oneTask noFailures pickFirst).state.phases 0 = "Finished" ∨
      (DAG.run oneTask noFailures pickFirst).state.phases 0 = "Failed") :=
  ⟨validDeps_of_no_dependencies oneTask (by decide), rfl, rfl, by decide⟩

/-- C2 (amended): for every DAG with a valid dependency set, if `DAG.run`
returns without raising then the finished list is as long as the task list
and every task's phase is `"Pending"` or `"Failed"` (the orchestrator marks
failures `"Failed"` but leaves successful tasks at the `"Pending"` it wrote
at dispatch; it merges back only their outputs). -/
theorem C2_clean_run_all_finished (tasks : List Task) (fails : Nat → Bool)
    (pick : Nat → Nat) (hvalid : ValidDeps tasks) (s : SchedState)
    (hok : DAG.run tasks fails pick = .ok s) :
    s.finished.length = tasks.length ∧
    ∀ j, j < tasks.length → s.phases j = "Pending" ∨ s.phases j = "Failed" := by
  unfold DAG.run at hok
  cases hloop : runLoop tasks fails pick tasks.length
      (DAG.resolve tasks (initState tasks)) with
  | ok s0 =>
    rw [hloop] at hok
    dsimp only at hok
    by_cases hlen : s0.finished.length = tasks.length
    · rw [if_pos hlen] at hok
      injection hok with hok2
      subst hok2
      obtain ⟨hinv, hrun⟩ := inv_runLoop tasks fails pick tasks.length _
        (inv_resolveFrom tasks _ 0 _ (inv_initState tasks)) s0 hloop
      refine ⟨hlen, ?_⟩
      intro j hj
      have hnodup : s0.finished.Nodup := (hinv.nodup).of_append_right
      have hj_mem : j ∈ s0.finished :=
        mem_of_nodup_length s0.finished tasks.length hnodup
          (fun x hx => hinv.finished_lt x hx) hlen j hj
      exact hinv.phase_state j (Or.inr hj_mem)
    · rw [if_neg hlen] at hok
      simp at hok
  | taskFailed s0 => rw [hloop] at hok; simp at hok
  | cyclicGraph s0 => rw [hloop] at hok; simp at hok
  | outOfFuel s0 => rw [hloop] at hok; simp at hok

/-- Witness for C2 (amended) at a concrete input. -/
theorem C2_clean_run_all_finished_witness :
    (DAG.run oneTask noFailures pickFirst).state.finished.length = oneTask.length ∧
    ∀ j, j < oneTask.length →
      (DAG.run oneTask noFailures pickFirst).state.phases j = "Pending" ∨
      (DAG.run oneTask noFailures pickFirst).state.phases j = "Failed" :=
  C2_clean_run_all_finished oneTask noFailures pickFirst
    (validDeps_of_no_dependencies oneTask (by decide)) _ rfl

/-- C3: when the worker future drawn for task `j` raises, the task's phase
is set to `"Failed"`; the step raises if and only if the task does not
tolerate failure, and an abort terminates the whole loop at once with
`waiting`/`running`/`finished` untouched (no further task is admitted); a
tolerated failure moves the task into `finished` and re-runs the admission
pass, which dispatches a task whenever some waiting task became ready. -/
theorem C3_worker_failure_handling (tasks : List Task) (fails : Nat → Bool)
    (k : Nat) (s : SchedState) (j : Nat)
    (hne : s.running ≠ [])
    (hj : j = s.running.getD (k % s.running.length) 0)
    (hjw : j ∉ s.waiting)
    (hfail : fails j = true) :
    ((tasks.getD j default).continue_on_failed = false →
      stepOnce tasks fails k s =
        .error { s with phases := fun m => if m = j then "Failed" else s.phases m }) ∧
    (∀ s1, stepOnce tasks fails k s = .error s1 →
      (tasks.getD j default).continue_on_failed = false) ∧
    (∀ fuel pick s1, pick fuel = k →
      stepOnce tasks fails k s = .error s1 →
      runLoop tasks fails pick (fuel + 1) s = .taskFailed s1) ∧
    ((tasks.getD j default).continue_on_failed = true →
      ∃ s1, stepOnce tasks fails k s = .ok s1 ∧
        s1.phases j = "Failed" ∧
        s1.finished = s.finished ++ [j] ∧
        ((∃ x ∈ s.waiting, taskReady (s.finished ++ [j]) (tasks.getD x default) = true) →
          (s.running.erase j).length < s1.running.length)) := by
  rw [stepOnce_eq tasks fails k s j hj, if_pos hfail]
  have hempty : ¬(s.running.isEmpty = true) := fun hh => hne (List.isEmpty_iff.mp hh)
  refine ⟨?_, ?_, ?_, ?_⟩
  · intro hc
    rw [hc]
    rfl
  · intro s1 h1
    cases hcv : (tasks.getD j default).continue_on_failed with
    | false => rfl
    | true => rw [hcv] at h1; simp at h1
  · intro fuel pick s1 hpick herr
    unfold runLoop
    rw [if_neg hempty, hpick, stepOnce_eq tasks fails k s j hj, if_pos hfail, herr]
  · intro hc
    simp only [hc, Bool.not_true, Bool.false_eq_true, if_false]
    obtain ⟨h1, h2, h3⟩ := resolve_after_pop tasks
      { phases := fun m => if m = j then "Failed" else s.phases m,
        outputsMerged := s.outputsMerged,
        waiting := s.waiting,
        running := s.running.erase j,
        finished := s.finished ++ [j] } j hjw (by simp)
    exact ⟨_, rfl, h1, h2, h3⟩

/-- Witness for C3 at a concrete input: a one-task DAG whose only task
fails and does not tolerate failure aborts the first loop iteration with
the task marked `"Failed"`. -/
theorem C3_worker_failure_handling_witness :
    stepOnce intolerantTask allFail 0 seedState1 =
      .error { seedState1 with
        phases := fun m => if m = 0 then "Failed" else seedState1.phases m } :=
  (C3_worker_failure_handling intolerantTask allFail 0 seedState1 0
    (by decide) (by decide) (by decide) rfl).1 (by decide)

/-! #### Field-table and heap lemmas -/

theorem lookupField_storeField_self {α : Type} (d : List (String × α))
    (key : String) (v : α) :
    lookupField (storeField d key v) key = some v := by
  induction d with
  | nil => simp [storeField, lookupField]
  | cons p rest ih =>
    obtain ⟨k, w⟩ := p
    by_cases hk : k = key
    · simp [storeField, hk, lookupField]
    · simp [storeField, hk, lookupField, ih]

theorem getD_append_left {α : Type} (h ext : List α) (r : Nat) (d0 : α)
    (hr : r < h.length) : (h ++ ext).getD r d0 = h.getD r d0 := by
  rw [List.getD_eq_getElem?_getD, List.getD_eq_getElem?_getD, List.getElem?_append,
    if_pos hr]

theorem getD_append_self {α : Type} (h : List α) (x d0 : α) :
    (h ++ [x]).getD h.length d0 = x := by
  rw [List.getD_eq_getElem _ _ (by simp)]
  exact List.getElem_concat_length h x h.length rfl _

theorem getD_set_self {α : Type} (l : List α) (i : Nat) (e d0 : α)
    (hi : i < l.length) : (l.set i e).getD i d0 = e := by
  rw [List.getD_eq_getElem _ _ (by simpa using hi)]
  exact List.getElem_set_eq _

theorem getD_set_ne {α : Type} (l : List α) (i j : Nat) (e d0 : α)
    (hij : i ≠ j) : (l.set i e).getD j d0 = l.getD j d0 := by
  rw [List.getD_eq_getElem?_getD, List.getD_eq_getElem?_getD, List.getElem?_set_ne hij]

/-! ### Claim theorems about `AutonamedDict` (`src/dflow/io.py`) -/

/-- C4: after `d[key] = p`, the stored entry's `name` attribute is `key`,
whatever `p.name` was: `__setitem__` overwrites the (copied) entry's name
with the key before storing it. -/
theorem C4_autonaming (h : IOHeap) (d : AutonamedDict) (key : String) (r : Nat) :
    (getitem (setitem h d key r).1 (setitem h d key r).2 key).map IOEntry.name
      = some key := by
  show (getitem (setEntryName (h ++ [h.getD r default]) h.length key)
      (storeField d key h.length) key).map IOEntry.name = some key
  rw [getitem, lookupField_storeField_self]
  dsimp only
  have hlen : h.length < (h ++ [h.getD r default]).length := by simp
  rw [setEntryName, getD_set_self _ _ _ _ hlen]
  rfl

/-- C10: `AutonamedDict` assignment stores a deep copy: the stored
reference is a fresh cell (distinct from `p`), the assignment leaves `p`'s
entry — its `name` included — unchanged, and later mutations of `p` do not
alter the stored entry. -/
theorem C10_deepcopy_isolation (h : IOHeap) (d : AutonamedDict) (key : String)
    (r : Nat) (hr : r < h.length) :
    lookupField (setitem h d key r).2 key = some h.length ∧
    h.length ≠ r ∧
    (setitem h d key r).1.getD r default = h.getD r default ∧
    ∀ e, getitem (setEntry (setitem h d key r).1 r e) (setitem h d key r).2 key =
      getitem (setitem h d key r).1 (setitem h d key r).2 key := by
  have hne : h.length ≠ r := by omega
  refine ⟨lookupField_storeField_self d key h.length, hne, ?_, ?_⟩
  · show (setEntryName (h ++ [h.getD r default]) h.length key).getD r default
      = h.getD r default
    rw [setEntryName, getD_set_ne _ _ _ _ _ hne, getD_append_left _ _ _ _ hr]
  · intro e
    show getitem (setEntry (setEntryName (h ++ [h.getD r default]) h.length key) r e)
        (storeField d key h.length) key
      = getitem (setEntryName (h ++ [h.getD r default]) h.length key)
        (storeField d key h.length) key
    rw [getitem, getitem, lookupField_storeField_self]
    dsimp only
    rw [setEntry, getD_set_ne _ _ _ _ _ (fun hh => hne hh.symm)]

/-- Witness for C10 at a concrete input. -/
theorem C10_deepcopy_isolation_witness :
    lookupField (setitem [⟨"old", 7⟩] [] "x" 0).2 "x" = some 1 ∧
    (1 : Nat) ≠ 0 ∧
    (setitem [⟨"old", 7⟩] [] "x" 0).1.getD 0 default = ([⟨"old", 7⟩] : IOHeap).getD 0 default ∧
    ∀ e, getitem (setEntry (setitem [⟨"old", 7⟩] [] "x" 0).1 0 e)
        (setitem [⟨"old", 7⟩] [] "x" 0).2 "x" =
      getitem (setitem [⟨"old", 7⟩] [] "x" 0).1 (setitem [⟨"old", 7⟩] [] "x" 0).2 "x" :=
  C10_deepcopy_isolation [⟨"old", 7⟩] [] "x" 0 (by decide)

/-! ### Claim theorem about `ArgoObjectDict` write-through
(`src/dflow/argo_objects.py`) -/

/-- Eager wrapping only appends to the heap: every wrapped node already on
the heap keeps its address and contents. -/
theorem wrap_heap_extends_all :
    (∀ (v : PlainVal) (h : WHeap), ∃ ext, (wrapVal v h).2 = h ++ ext) ∧
    (∀ (xs : List PlainVal) (h : WHeap), ∃ ext, (wrapItems xs h).2 = h ++ ext) ∧
    (∀ (fs : List (String × PlainVal)) (h : WHeap), ∃ ext, (wrapFields fs h).2 = h ++ ext) := by
  have H := wrapVal.mutual_induct
    (fun v h => ∃ ext, (wrapVal v h).2 = h ++ ext)
    (fun xs h => ∃ ext, (wrapItems xs h).2 = h ++ ext)
    (fun fs h => ∃ ext, (wrapFields fs h).2 = h ++ ext)
    (fun v h => ⟨[], by simp [wrapVal]⟩)
    (fun fs h ih => by
      obtain ⟨e, he⟩ := ih
      exact ⟨e ++ [.dictNode (wrapFields fs h).1], by simp [wrapVal, he]⟩)
    (fun xs h ih => by
      obtain ⟨e, he⟩ := ih
      exact ⟨e ++ [.listNode (wrapItems xs h).1], by simp [wrapVal, he]⟩)
    (fun h => ⟨[], by simp [wrapFields]⟩)
    (fun k v rest h ih1 ih2 => by
      obtain ⟨e1, he1⟩ := ih1
      obtain ⟨e2, he2⟩ := ih2
      refine ⟨e1 ++ e2, ?_⟩
      show (wrapFields rest (wrapVal v h).2).2 = h ++ (e1 ++ e2)
      rw [he2, he1, List.append_assoc])
    (fun h => ⟨[], by simp [wrapItems]⟩)
    (fun v rest h ih1 ih2 => by
      obtain ⟨e1, he1⟩ := ih1
      obtain ⟨e2, he2⟩ := ih2
      refine ⟨e1 ++ e2, ?_⟩
      show (wrapItems rest (wrapVal v h).2).2 = h ++ (e1 ++ e2)
      rw [he2, he1, List.append_assoc])
  exact ⟨H.1, H.2⟩

/-- Wrapping a field table maps the first binding of `a`, when it is a
nested mapping, to a reference to a dict node on the final heap. -/
theorem wrapFields_lookup_obj :
    ∀ (m : List (String × PlainVal)) (h : WHeap) (a : String)
      (inner : List (String × PlainVal)),
    lookupField m a = some (.obj inner) →
    ∃ c fsc, lookupField (wrapFields m h).1 a = some (.ref c) ∧
      c < (wrapFields m h).2.length ∧
      (wrapFields m h).2.getD c default = .dictNode fsc := by
  intro m
  induction m with
  | nil => intro h a inner hl; simp [lookupField] at hl
  | cons p rest ih =>
    intro h a inner hl
    obtain ⟨k, v⟩ := p
    by_cases hk : k = a
    · rw [lookupField, if_pos hk] at hl
      injection hl with hl
      subst hl
      obtain ⟨-, -, hext⟩ := wrap_heap_extends_all
      obtain ⟨e, he⟩ := hext rest (wrapVal (.obj inner) h).2
      refine ⟨(wrapFields inner h).2.length, (wrapFields inner h).1, ?_, ?_, ?_⟩
      · show lookupField ((k, (wrapVal (.obj inner) h).1) :: (wrapFields rest (wrapVal (.obj inner) h).2).1) a
          = some (.ref (wrapFields inner h).2.length)
        rw [lookupField, if_pos hk]
        rfl
      · show (wrapFields inner h).2.length < (wrapFields rest (wrapVal (.obj inner) h).2).2.length
        rw [he]
        show (wrapFields inner h).2.length <
          ((wrapFields inner h).2 ++ [WNode.dictNode (wrapFields inner h).1] ++ e).length
        simp
      · show (wrapFields rest (wrapVal (.obj inner) h).2).2.getD (wrapFields inner h).2.length default
          = .dictNode (wrapFields inner h).1
        rw [he]
        show ((wrapFields inner h).2 ++ [WNode.dictNode (wrapFields inner h).1] ++ e).getD
          (wrapFields inner h).2.length default = .dictNode (wrapFields inner h).1
        rw [getD_append_left ((wrapFields inner h).2 ++ [WNode.dictNode (wrapFields inner h).1])
          e _ _ (by simp), getD_append_self]
    · rw [lookupField, if_neg hk] at hl
      obtain ⟨c, fsc, h1, h2, h3⟩ := ih (wrapVal v h).2 a inner hl
      refine ⟨c, fsc, ?_, h2, h3⟩
      show lookupField ((k, (wrapVal v h).1) :: (wrapFields rest (wrapVal v h).2).1) a
        = some (.ref c)
      rw [lookupField, if_neg hk]
      exact h1

/-- C5: eager recursive wrapping gives write-through: after
`root = ArgoObjectDict(m)` and `child = root.a` (a nested mapping),
`child.b = v` is visible as `root.a.b == v` — `root.a` still returns the
same reference, and the mutation happened in the referenced node. -/
theorem C5_write_through (m inner : List (String × PlainVal)) (a b : String)
    (v : Nat) (hm : lookupField m a = some (.obj inner)) :
    ∃ c, getattr (ArgoObjectDict m []).2 (ArgoObjectDict m []).1 a = some (.ref c) ∧
      getattr (setattr (ArgoObjectDict m []).2 c b (.scalar v))
        (ArgoObjectDict m []).1 a = some (.ref c) ∧
      getattr (setattr (ArgoObjectDict m []).2 c b (.scalar v)) c b
        = some (.scalar v) := by
  obtain ⟨c, fsc, hlk, hc, hnode⟩ := wrapFields_lookup_obj m [] a inner hm
  have hroot : (ArgoObjectDict m []).1 = (wrapFields m []).2.length := rfl
  have hheap : (ArgoObjectDict m []).2
      = (wrapFields m []).2 ++ [.dictNode (wrapFields m []).1] := rfl
  have hgetroot : (ArgoObjectDict m []).2.getD (ArgoObjectDict m []).1 default
      = .dictNode (wrapFields m []).1 := by
    rw [hroot, hheap, getD_append_self]
  have hgetc : (ArgoObjectDict m []).2.getD c default = .dictNode fsc := by
    rw [hheap, getD_append_left _ _ _ _ hc]
    exact hnode
  have hcne : c ≠ (ArgoObjectDict m []).1 := by
    rw [hroot]; omega
  have hset : setattr (ArgoObjectDict m []).2 c b (.scalar v)
      = (ArgoObjectDict m []).2.set c (.dictNode (storeField fsc b (.scalar v))) := by
    rw [setattr, hgetc]
  refine ⟨c, ?_, ?_, ?_⟩
  · rw [getattr, hgetroot]
    exact hlk
  · rw [getattr, hset, getD_set_ne _ _ _ _ _ hcne, hgetroot]
    exact hlk
  · have hclen : c < (ArgoObjectDict m []).2.length := by
      rw [hheap]; simp; omega
    rw [getattr, hset, getD_set_self _ _ _ _ hclen]
    exact lookupField_storeField_self fsc b (.scalar v)

/-- Witness for C5 at the spec's concrete input
`root = wrap({"a": {"b": 1}}); child = root.a; child.b = 2`. -/
theorem C5_write_through_witness :
    ∃ c, getattr (ArgoObjectDict [("a", PlainVal.obj [("b", PlainVal.scalar 1)])] []).2
        (ArgoObjectDict [("a", PlainVal.obj [("b", PlainVal.scalar 1)])] []).1 "a" = some (.ref c) ∧
      getattr (setattr (ArgoObjectDict [("a", PlainVal.obj [("b", PlainVal.scalar 1)])] []).2 c "b" (.scalar 2))
        (ArgoObjectDict [("a", PlainVal.obj [("b", PlainVal.scalar 1)])] []).1 "a" = some (.ref c) ∧
      getattr (setattr (ArgoObjectDict [("a", PlainVal.obj [("b", PlainVal.scalar 1)])] []).2 c "b" (.scalar 2))
        c "b" = some (.scalar 2) :=
  C5_write_through [("a", PlainVal.obj [("b", PlainVal.scalar 1)])] [("b", PlainVal.scalar 1)] "a" "b" 2 rfl

/-! ### Claim theorem about `get_pod_name` / `fnva` -/

/-- Every FNV step reduces `% fnv_size`, so the hash stays below it. -/
theorem fnva_lt (data : List Nat) (p sz : Nat) (hsz : 0 < sz) :
    ∀ init, init < sz → fnva data init p sz < sz := by
  induction data with
  | nil => intro init h; exact h
  | cons b rest ih => intro init h; exact ih _ (Nat.mod_lt _ hsz)

/-- Python's decimal rendering of `n < 10 ^ k` has at most `k` digits. -/
theorem natDigits_length_le : ∀ (k n : Nat), n < 10 ^ k → 1 ≤ k →
    (natDigits n).length ≤ k := by
  intro k
  induction k with
  | zero => intro n _ h1; omega
  | succ k ih =>
    intro n hn _
    rw [natDigits]
    by_cases h10 : n < 10
    · rw [if_pos h10]
      simp
    · rw [if_neg h10]
      have hk1 : 1 ≤ k := by
        rcases Nat.eq_zero_or_pos k with hk | hk
        · subst hk; simp at hn; omega
        · exact hk
      have hdiv : n / 10 < 10 ^ k := by
        rw [Nat.div_lt_iff_lt_mul (by omega)]
        calc n < 10 ^ (k + 1) := hn
          _ = 10 ^ k * 10 := by rw [Nat.pow_succ]
      have hlen := ih (n / 10) hdiv hk1
      rw [List.length_append]
      simp only [List.length_cons, List.length_nil]
      omega

/-- C6: `get_pod_name` returns `wf_name` whenever it equals `node_name`;
otherwise it returns `<wf_name>-<template_name>` truncated to the
253-character ceiling minus the fixed hash width, a dash, and the 32-bit
FNV-1a hash of `node_name`'s UTF-8 bytes in unsigned decimal; in that case
the result is at most 253 characters; the hash fits in 32 bits; and the
result does not depend on `node_id` (determinism: the function reads
nothing else). -/
theorem C6_get_pod_name (wf_name node_name template_name node_id : PyStr) :
    (wf_name = node_name →
      get_pod_name wf_name node_name template_name node_id = wf_name) ∧
    (wf_name ≠ node_name →
      get_pod_name wf_name node_name template_name node_id =
        (if (wf_name ++ ['-'] ++ template_name).length >
            max_k8s_resource_name_length - k8s_naming_hash_length - 1
          then (wf_name ++ ['-'] ++ template_name).take
            (max_k8s_resource_name_length - k8s_naming_hash_length - 1)
          else wf_name ++ ['-'] ++ template_name) ++ ['-'] ++
        natDigits (fnva (strEncode node_name) FNV1_32_INIT FNV_32_PRIME (2 ^ 32))) ∧
    fnva (strEncode node_name) FNV1_32_INIT FNV_32_PRIME (2 ^ 32) < 2 ^ 32 ∧
    (wf_name ≠ node_name →
      (get_pod_name wf_name node_name template_name node_id).length ≤ 253) ∧
    (∀ other_id : PyStr,
      get_pod_name wf_name node_name template_name node_id =
        get_pod_name wf_name node_name template_name other_id) := by
  have hash_lt : fnva (strEncode node_name) FNV1_32_INIT FNV_32_PRIME (2 ^ 32) < 2 ^ 32 :=
    fnva_lt _ _ _ (by norm_num) FNV1_32_INIT (by norm_num [FNV1_32_INIT])
  refine ⟨?_, ?_, hash_lt, ?_, fun other_id => rfl⟩
  · intro he
    rw [get_pod_name, if_pos he]
  · intro hne
    rw [get_pod_name, if_neg hne]
  · intro hne
    rw [get_pod_name, if_neg hne]
    dsimp only
    have hdig : (natDigits (fnva (strEncode node_name) FNV1_32_INIT FNV_32_PRIME
        (2 ^ 32))).length ≤ 10 := by
      apply natDigits_length_le
      · calc fnva (strEncode node_name) FNV1_32_INIT FNV_32_PRIME (2 ^ 32)
            < 2 ^ 32 := hash_lt
          _ ≤ 10 ^ 10 := by norm_num
      · omega
    by_cases hlong : (wf_name ++ ['-'] ++ template_name).length >
        max_k8s_resource_name_length - k8s_naming_hash_length - 1
    · rw [if_pos hlong]
      have htake := List.length_take
        (max_k8s_resource_name_length - k8s_naming_hash_length - 1)
        (wf_name ++ ['-'] ++ template_name)
      simp only [List.length_append, List.length_cons, List.length_nil,
        max_k8s_resource_name_length, k8s_naming_hash_length] at htake hdig ⊢
      omega
    · rw [if_neg hlong]
      simp only [List.length_append, List.length_cons, List.length_nil,
        max_k8s_resource_name_length, k8s_naming_hash_length] at hlong hdig ⊢
      omega

/-- Witness for C6 at the spec's concrete inputs. -/
theorem C6_get_pod_name_witness :
    get_pod_name "wf".toList "wf".toList "t".toList "id".toList = "wf".toList ∧
    "wf".toList ≠ "node".toList ∧
    (get_pod_name "wf".toList "node".toList "t".toList "id".toList).length ≤ 253 :=
  ⟨(C6_get_pod_name "wf".toList "wf".toList "t".toList "id".toList).1 rfl,
   by decide,
   (C6_get_pod_name "wf".toList "node".toList "t".toList "id".toList).2.2.2.1 (by decide)⟩

/-! ### Claim theorem about `ArgoWorkflow.get_step` -/

theorem get_step_mem (nodes : List NodeStatus)
    (name key phase id type : Option (List PyStr)) (st : NodeStatus) :
    st ∈ ArgoWorkflow.get_step nodes name key phase id type ↔
      st ∈ nodes ∧ keepStep name key phase id type st = true := by
  rw [ArgoWorkflow.get_step]
  rw [(List.perm_insertionSort _ _).mem_iff, List.mem_filter]

/-- C7: `get_step` never returns a node without a start time (whatever the
other filters say); every returned node passes every supplied filter; and
the result is sorted by start time ascending. -/
theorem C7_get_step_filters (nodes : List NodeStatus)
    (name key phase id type : Option (List PyStr)) :
    (∀ st ∈ ArgoWorkflow.get_step nodes name key phase id type,
      st.startedAt.isSome = true) ∧
    (∀ st ∈ nodes, st.startedAt = none →
      st ∉ ArgoWorkflow.get_step nodes name key phase id type) ∧
    (∀ st ∈ ArgoWorkflow.get_step nodes name key phase id type,
      (∀ ns, name = some ns → matchName st.displayName ns = true) ∧
      (∀ ks, key = some ks → ∃ sk, stepKey st.inputParameters = some sk ∧ sk ∈ ks) ∧
      (∀ ps, phase = some ps → ∃ p, st.phase = some p ∧ p ∈ ps) ∧
      (∀ ts, type = some ts → ∃ t, st.type = some t ∧ t ∈ ts) ∧
      (∀ ids, id = some ids → st.id ∈ ids)) ∧
    List.Sorted (fun a b => a.startedAt.getD 0 ≤ b.startedAt.getD 0)
      (ArgoWorkflow.get_step nodes name key phase id type) := by
  have hkeep : ∀ st, keepStep name key phase id type st = true →
      st.startedAt.isSome = true ∧
      (∀ ns, name = some ns → matchName st.displayName ns = true) ∧
      (∀ ks, key = some ks → ∃ sk, stepKey st.inputParameters = some sk ∧ sk ∈ ks) ∧
      (∀ ps, phase = some ps → ∃ p, st.phase = some p ∧ p ∈ ps) ∧
      (∀ ts, type = some ts → ∃ t, st.type = some t ∧ t ∈ ts) ∧
      (∀ ids, id = some ids → st.id ∈ ids) := by
    intro st hk
    rw [keepStep.eq_def] at hk
    simp only [Bool.and_eq_true] at hk
    obtain ⟨⟨⟨⟨⟨h1, h2⟩, h3⟩, h4⟩, h5⟩, h6⟩ := hk
    refine ⟨h1, ?_, ?_, ?_, ?_, ?_⟩
    · intro ns hns
      rw [hns] at h2
      exact h2
    · intro ks hks
      rw [hks] at h3
      cases hsk : stepKey st.inputParameters with
      | none => rw [hsk] at h3; cases h3
      | some sk =>
        rw [hsk] at h3
        exact ⟨sk, rfl, List.elem_iff.mp h3⟩
    · intro ps hps
      rw [hps] at h4
      cases hp : st.phase with
      | none => rw [hp] at h4; cases h4
      | some p =>
        rw [hp] at h4
        exact ⟨p, rfl, List.elem_iff.mp h4⟩
    · intro ts hts
      rw [hts] at h5
      cases ht : st.type with
      | none => rw [ht] at h5; cases h5
      | some t =>
        rw [ht] at h5
        exact ⟨t, rfl, List.elem_iff.mp h5⟩
    · intro ids hids
      rw [hids] at h6
      exact List.elem_iff.mp h6
  refine ⟨?_, ?_, ?_, ?_⟩
  · intro st hst
    exact (hkeep st ((get_step_mem nodes name key phase id type st).mp hst).2).1
  · intro st _ hnone hst
    have := (hkeep st ((get_step_mem nodes name key phase id type st).mp hst).2).1
    rw [hnone] at this
    cases this
  · intro st hst
    exact (hkeep st ((get_step_mem nodes name key phase id type st).mp hst).2).2
  · rw [ArgoWorkflow.get_step]
    haveI : IsTotal NodeStatus (fun a b => a.startedAt.getD 0 ≤ b.startedAt.getD 0) :=
      ⟨fun a b => Nat.le_total _ _⟩
    haveI : IsTrans NodeStatus (fun a b => a.startedAt.getD 0 ≤ b.startedAt.getD 0) :=
      ⟨fun a b c hab hbc => Nat.le_trans hab hbc⟩
    exact List.sorted_insertionSort _ _

/-- Witness for C7 at a concrete input: one unstarted and one started node,
both matching the supplied name filter. -/
theorem C7_get_step_filters_witness :
    nodeNoStart.startedAt = none ∧
    nodeNoStart ∈ [nodeNoStart, nodeStarted] ∧
    nodeNoStart ∉ ArgoWorkflow.get_step [nodeNoStart, nodeStarted]
      (some ["x".toList]) none none none none ∧
    List.Sorted (fun a b => a.startedAt.getD 0 ≤ b.startedAt.getD 0)
      (ArgoWorkflow.get_step [nodeNoStart, nodeStarted]
        (some ["x".toList]) none none none none) :=
  ⟨rfl, List.mem_cons_self _ _,
   (C7_get_step_filters [nodeNoStart, nodeStarted]
      (some ["x".toList]) none none none none).2.1 nodeNoStart
      (List.mem_cons_self _ _) rfl,
   (C7_get_step_filters [nodeNoStart, nodeStarted]
      (some ["x".toList]) none none none none).2.2.2⟩

/-! ### Claim theorems about `ArgoStep.modify_output_artifact` -/

/-- Behaviour of `modify_output_artifact` outside debug mode with the `s3`
backend: the named artifact's object-store reference becomes the given
handle's; a `.tgz` key ends with no archive flag; any other key sets the
explicit `{"none": {}}` flag only when no archive flag was present, and
leaves a pre-existing flag unchanged. -/
theorem modify_output_artifact_spec (cfgMode repoType : PyStr)
    (outputs : StepOutputs) (name : String) (s : S3Artifact)
    (hmode : ¬cfgMode = "debug".toList) (hrepo : repoType = "s3".toList)
    (art0 : OutArtifact) (hart : lookupField outputs.artifacts name = some art0) :
    ∃ art1, ArgoStep.modify_output_artifact cfgMode repoType outputs name (.s3val s)
        = .ok { outputs with artifacts := storeField outputs.artifacts name art1 } ∧
      art1.s3 = some { key := s.key } ∧
      (lastChars 4 s.key = ".tgz".toList → art1.archive = none) ∧
      (lastChars 4 s.key ≠ ".tgz".toList → art0.archive = none →
        art1.archive = some .noneFlag) ∧
      (lastChars 4 s.key ≠ ".tgz".toList → ∀ a, art0.archive = some a →
        art1.archive = some a) ∧
      art1.oss = art0.oss ∧ art1.local_path = art0.local_path := by
  rw [ArgoStep.modify_output_artifact.eq_def, if_neg hmode]
  dsimp only
  rw [hart]
  dsimp only
  rw [if_pos hrepo]
  by_cases htgz : lastChars 4 s.key = ".tgz".toList
  · rw [if_pos htgz]
    cases harc : art0.archive with
    | some a =>
      rw [if_pos (show (some a).isSome = true from rfl)]
      exact ⟨_, rfl, rfl, fun _ => rfl, fun hh => absurd htgz hh,
        fun hh => absurd htgz hh, rfl, rfl⟩
    | none =>
      rw [if_neg (by simp)]
      exact ⟨_, rfl, rfl, fun _ => rfl, fun hh => absurd htgz hh,
        fun hh => absurd htgz hh, rfl, rfl⟩
  · rw [if_neg htgz]
    cases harc : art0.archive with
    | some a =>
      rw [if_neg (by simp)]
      refine ⟨_, rfl, rfl, fun hh => absurd hh htgz, ?_, ?_, rfl, rfl⟩
      · intro _ hh0
        exact absurd hh0 (by simp)
      · intro _ a2 ha2
        injection ha2 with h
        subst h
        rfl
    | none =>
      rw [if_pos (show (none : Option ArchiveFlag).isNone = true from rfl)]
      refine ⟨_, rfl, rfl, fun hh => absurd hh htgz, fun _ _ => rfl, ?_, rfl, rfl⟩
      intro _ a2 ha2
      exact absurd ha2 (by simp)

/-- C9 counterexample: outside debug mode, with a non-`.tgz` key, an
artifact that already carries a `{"tar": ...}` archive value keeps it — the
flag is not recomputed to `{"none": {}}` as the claim states. -/
theorem C9_counterexample :
    (ArgoStep.modify_output_artifact "cloud".toList "s3".toList tarOutputs
      "art" (.s3val { key := "abc".toList, local_path := none })).map
      (fun o => (lookupField o.artifacts "art").map OutArtifact.archive)
      = .ok (some (some .tarFlag)) ∧
    lastChars 4 "abc".toList ≠ ".tgz".toList ∧
    some ArchiveFlag.tarFlag ≠ some ArchiveFlag.noneFlag := by
  refine ⟨rfl, by decide, by decide⟩

/-- C9 (amended): outside debug mode the call asserts the handle is an
`S3Artifact` and replaces the named output artifact's object-store
reference with the handle's; the archive flag is recomputed from the key
suffix only as far as: a `.tgz` key clears it (ends with no flag), any
other key sets the explicit `{"none": {}}` value only when no flag was
present — a pre-existing flag is left unchanged. -/
theorem C9_modify_output_artifact (cfgMode repoType : PyStr)
    (outputs : StepOutputs) (name : String) (s : S3Artifact)
    (hmode : ¬cfgMode = "debug".toList) (hrepo : repoType = "s3".toList)
    (art0 : OutArtifact) (hart : lookupField outputs.artifacts name = some art0) :
    ArgoStep.modify_output_artifact cfgMode repoType outputs name .otherVal
      = .error .assertionError ∧
    ∃ out2 art1,
      ArgoStep.modify_output_artifact cfgMode repoType outputs name (.s3val s)
        = .ok out2 ∧
      lookupField out2.artifacts name = some art1 ∧
      art1.s3 = some { key := s.key } ∧
      (lastChars 4 s.key = ".tgz".toList → art1.archive = none) ∧
      (lastChars 4 s.key ≠ ".tgz".toList → art0.archive = none →
        art1.archive = some .noneFlag) ∧
      (lastChars 4 s.key ≠ ".tgz".toList → ∀ a, art0.archive = some a →
        art1.archive = some a) := by
  constructor
  · rw [ArgoStep.modify_output_artifact.eq_def, if_neg hmode]
  · obtain ⟨art1, heq, hs3, h1, h2, h3, -, -⟩ :=
      modify_output_artifact_spec cfgMode repoType outputs name s hmode hrepo art0 hart
    exact ⟨_, art1, heq, lookupField_storeField_self _ _ _, hs3, h1, h2, h3⟩

/-- Witness for C9 (amended) at a concrete input (non-debug, `s3` backend,
artifact present, `.tgz` key). -/
theorem C9_modify_output_artifact_witness :
    ArgoStep.modify_output_artifact "cloud".toList "s3".toList tarOutputs
      "art" .otherVal = .error .assertionError ∧
    ∃ out2 art1,
      ArgoStep.modify_output_artifact "cloud".toList "s3".toList tarOutputs
        "art" (.s3val { key := "a.tgz".toList, local_path := none }) = .ok out2 ∧
      lookupField out2.artifacts "art" = some art1 ∧
      art1.s3 = some { key := "a.tgz".toList } ∧
      (lastChars 4 "a.tgz".toList = ".tgz".toList → art1.archive = none) ∧
      (lastChars 4 "a.tgz".toList ≠ ".tgz".toList → tarArt.archive = none →
        art1.archive = some .noneFlag) ∧
      (lastChars 4 "a.tgz".toList ≠ ".tgz".toList → ∀ a,
        tarArt.archive = some a → art1.archive = some a) :=
  C9_modify_output_artifact "cloud".toList "s3".toList tarOutputs
    "art" { key := "a.tgz".toList, local_path := none }
    (by decide) rfl tarArt rfl

/-! ### Claim theorem about
`ArgoStep.upload_and_modify_sliced_output_artifact` -/

/-- In a list sorted by `order`, every element's `order` is bounded by the
last element's. -/
theorem pairwise_le_getLast :
    ∀ (l : List SliceItem), l.Pairwise (fun a b => a.order ≤ b.order) →
    ∀ last, l.getLast? = some last → ∀ x ∈ l, x.order ≤ last.order := by
  intro l
  induction l with
  | nil => intro _ last hl; cases hl
  | cons a rest ih =>
    intro hp last hl x hx
    cases rest with
    | nil =>
      have ha : a = last := by simpa using hl
      rcases List.mem_cons.mp hx with rfl | hx2
      · rw [ha]
      · exact absurd hx2 (List.not_mem_nil x)
    | cons b t =>
      have hl2 : (b :: t).getLast? = some last := by
        rwa [List.getLast?_cons_cons] at hl
      have hlast_mem : last ∈ b :: t := by
        obtain ⟨h9, heq⟩ := List.mem_getLast?_eq_getLast (Option.mem_def.mpr hl2)
        rw [heq]
        exact List.getLast_mem h9
      rcases List.mem_cons.mp hx with rfl | hx2
      · exact (List.pairwise_cons.mp hp).1 last hlast_mem
      · exact ih (List.pairwise_cons.mp hp).2 last hl2 x hx2

/-- The ordered-collection fold keeps the array length. -/
theorem foldl_set_length (ps : List (PyStr × SliceItem)) :
    ∀ init : List (Option PyStr),
    (ps.foldl (fun arr pr => arr.set pr.2.order (some pr.1)) init).length
      = init.length := by
  induction ps with
  | nil => intro init; rfl
  | cons q rest ih =>
    intro init
    rw [List.foldl_cons, ih, List.length_set]

/-- Positions whose index is no pair's `order` are untouched by the fold. -/
theorem foldl_set_preserve (ps : List (PyStr × SliceItem)) :
    ∀ (init : List (Option PyStr)) (idx : Nat),
    (∀ p ∈ ps, p.2.order ≠ idx) →
    (ps.foldl (fun arr pr => arr.set pr.2.order (some pr.1)) init).getD idx none
      = init.getD idx none := by
  induction ps with
  | nil => intro init idx _; rfl
  | cons q rest ih =>
    intro init idx hidx
    rw [List.foldl_cons, ih _ _ (fun p hp => hidx p (List.mem_cons_of_mem _ hp)),
      getD_set_ne _ _ _ _ _ (hidx q (List.mem_cons_self _ _))]

/-- With pairwise-distinct orders, every pair's path ends at its order. -/
theorem foldl_set_getD_mem (ps : List (PyStr × SliceItem)) :
    ∀ init : List (Option PyStr),
    (ps.map (fun pr => pr.2.order)).Nodup →
    (∀ p ∈ ps, p.2.order < init.length) →
    ∀ p ∈ ps,
    (ps.foldl (fun arr pr => arr.set pr.2.order (some pr.1)) init).getD
      p.2.order none = some p.1 := by
  induction ps with
  | nil => intro init _ _ p hp; exact absurd hp (List.not_mem_nil p)
  | cons q rest ih =>
    intro init hnodup hlt p hp
    rw [List.map_cons] at hnodup
    rw [List.foldl_cons]
    rcases List.mem_cons.mp hp with rfl | hp2
    · rw [foldl_set_preserve]
      · exact getD_set_self _ _ _ _ (hlt p (List.mem_cons_self _ _))
      · intro x hx he
        have h1 : p.2.order ∉ rest.map (fun pr => pr.2.order) :=
          (List.nodup_cons.mp hnodup).1
        exact h1 (he ▸ List.mem_map_of_mem _ hx)
    · apply ih
      · exact (List.nodup_cons.mp hnodup).2
      · intro x hx
        rw [List.length_set]
        exact hlt x (List.mem_cons_of_mem _ hx)
      · exact hp2

/-- A hole-filled array starts as all-`None`. -/
theorem getD_replicate_none (n idx : Nat) :
    (List.replicate n (none : Option PyStr)).getD idx none = none := by
  rw [List.getD_eq_getElem?_getD, List.getElem?_replicate]
  split <;> rfl

/-- C8: the sliced-artifact upload asserts the slice manifest parameter is
declared and that one local path is supplied per declared slice; under
those preconditions (with at least one slice and distinct orders, outside
debug mode, `s3` backend, artifact present) it sorts the manifest by
`order`, builds a `max(order) + 1`-sized array with holes left `None`,
places each supplied path at its paired record's `order`, hands that
ordered collection to the upload capability, and rewrites the artifact's
object-store reference to the uploaded object. -/
theorem C8_sliced_upload (upload : List (Option PyStr) → S3Artifact)
    (cfgMode repoType : PyStr) (outputs : StepOutputs) (name : String)
    (path : List PyStr) :
    (lookupField outputs.parameters ("dflow_" ++ name ++ "_path_list") = none →
      ArgoStep.upload_and_modify_sliced_output_artifact upload cfgMode repoType
        outputs name path = .error .assertionError) ∧
    (∀ pl, lookupField outputs.parameters ("dflow_" ++ name ++ "_path_list")
        = some pl →
      pl.length ≠ path.length →
      ArgoStep.upload_and_modify_sliced_output_artifact upload cfgMode repoType
        outputs name path = .error .assertionError) ∧
    (∀ pl art0,
      lookupField outputs.parameters ("dflow_" ++ name ++ "_path_list") = some pl →
      pl.length = path.length → pl ≠ [] →
      (pl.map SliceItem.order).Nodup →
      ¬cfgMode = "debug".toList → repoType = "s3".toList →
      lookupField outputs.artifacts name = some art0 →
      ∃ out2 uploaded,
        ArgoStep.upload_and_modify_sliced_output_artifact upload cfgMode repoType
          outputs name path = .ok (out2, uploaded) ∧
        (∀ it ∈ pl, it.order < uploaded.length) ∧
        (∃ it ∈ pl, uploaded.length = it.order + 1) ∧
        (∀ pr ∈ path.zip (List.insertionSort (fun a b => a.order ≤ b.order) pl),
          uploaded.getD pr.2.order none = some pr.1) ∧
        (∀ idx, (∀ it ∈ pl, it.order ≠ idx) → uploaded.getD idx none = none) ∧
        (∃ art1, lookupField out2.artifacts name = some art1 ∧
          art1.s3 = some { key := (upload uploaded).key })) := by
  refine ⟨?_, ?_, ?_⟩
  · intro h
    rw [ArgoStep.upload_and_modify_sliced_output_artifact.eq_def, h]
  · intro pl h hne
    rw [ArgoStep.upload_and_modify_sliced_output_artifact.eq_def, h]
    dsimp only
    rw [if_pos hne]
  · intro pl art0 hpl hlen hne0 hnodup hmode hrepo hart
    have hperm : (List.insertionSort (fun a b => a.order ≤ b.order) pl).Perm pl :=
      List.perm_insertionSort _ _
    haveI : IsTotal SliceItem (fun a b => a.order ≤ b.order) :=
      ⟨fun a b => Nat.le_total _ _⟩
    haveI : IsTrans SliceItem (fun a b => a.order ≤ b.order) :=
      ⟨fun a b c hab hbc => Nat.le_trans hab hbc⟩
    have hpw : (List.insertionSort (fun a b => a.order ≤ b.order) pl).Pairwise
        (fun a b => a.order ≤ b.order) :=
      List.sorted_insertionSort _ _
    have hsne : List.insertionSort (fun a b => a.order ≤ b.order) pl ≠ [] := by
      intro hemp
      have hl0 := hperm.length_eq
      rw [hemp] at hl0
      exact hne0 (List.length_eq_zero.mp hl0.symm)
    cases hlast : (List.insertionSort (fun a b => a.order ≤ b.order) pl).getLast? with
    | none => exact absurd (List.getLast?_eq_none_iff.mp hlast) hsne
    | some last =>
      have hmax : ∀ x ∈ pl, x.order ≤ last.order := fun x hx =>
        pairwise_le_getLast _ hpw last hlast x (hperm.mem_iff.mpr hx)
      have hlast_mem_pl : last ∈ pl := by
        obtain ⟨h9, heq⟩ := List.mem_getLast?_eq_getLast (Option.mem_def.mpr hlast)
        apply hperm.mem_iff.mp
        rw [heq]
        exact List.getLast_mem h9
      have hslen : (List.insertionSort (fun a b => a.order ≤ b.order) pl).length
          = pl.length := hperm.length_eq
      have hmapsnd : (path.zip (List.insertionSort (fun a b => a.order ≤ b.order) pl)).map
          Prod.snd = List.insertionSort (fun a b => a.order ≤ b.order) pl :=
        List.map_snd_zip _ _ (by rw [hslen, hlen])
      have hzlt : ∀ pr ∈ path.zip (List.insertionSort (fun a b => a.order ≤ b.order) pl),
          pr.2.order < (List.replicate (last.order + 1) (none : Option PyStr)).length := by
        intro pr hpr
        rw [List.length_replicate]
        have h2 : pr.2 ∈ List.insertionSort (fun a b => a.order ≤ b.order) pl := by
          rw [← hmapsnd]
          exact List.mem_map_of_mem _ hpr
        have := hmax pr.2 (hperm.mem_iff.mp h2)
        omega
      have hznodup : ((path.zip (List.insertionSort (fun a b => a.order ≤ b.order)
          pl)).map (fun pr => pr.2.order)).Nodup := by
        have hcomp : ((path.zip (List.insertionSort (fun a b => a.order ≤ b.order)
            pl)).map (fun pr => pr.2.order))
            = ((path.zip (List.insertionSort (fun a b => a.order ≤ b.order) pl)).map
              Prod.snd).map SliceItem.order := by
          rw [List.map_map]
          rfl
        rw [hcomp, hmapsnd]
        exact ((hperm.map SliceItem.order).nodup_iff).mpr hnodup
      obtain ⟨art2, heq2, hs3, -, -, -, -, -⟩ :=
        modify_output_artifact_spec cfgMode repoType outputs name
          (upload ((path.zip (List.insertionSort (fun a b => a.order ≤ b.order)
            pl)).foldl (fun arr pr => arr.set pr.2.order (some pr.1))
            (List.replicate (last.order + 1) (none : Option PyStr))))
          hmode hrepo art0 hart
      have heqfn : ArgoStep.upload_and_modify_sliced_output_artifact upload cfgMode
          repoType outputs name path = .ok
            ({ outputs with artifacts := storeField outputs.artifacts name art2 },
             (path.zip (List.insertionSort (fun a b => a.order ≤ b.order) pl)).foldl
               (fun arr pr => arr.set pr.2.order (some pr.1))
               (List.replicate (last.order + 1) (none : Option PyStr))) := by
        rw [ArgoStep.upload_and_modify_sliced_output_artifact.eq_def, hpl]
        dsimp only
        rw [if_neg (fun hh => hh hlen), hlast]
        dsimp only
        rw [heq2]
        rfl
      refine ⟨_, _, heqfn, ?_, ?_, ?_, ?_, art2,
        lookupField_storeField_self _ _ _, hs3⟩
      · intro it hit
        rw [foldl_set_length, List.length_replicate]
        have := hmax it hit
        omega
      · refine ⟨last, hlast_mem_pl, ?_⟩
        rw [foldl_set_length, List.length_replicate]
      · intro pr hpr
        exact foldl_set_getD_mem _ _ hznodup hzlt pr hpr
      · intro idx hidx
        rw [foldl_set_preserve, getD_replicate_none]
        intro q hq
        apply hidx
        have h2 : q.2 ∈ List.insertionSort (fun a b => a.order ≤ b.order) pl := by
          rw [← hmapsnd]
          exact List.mem_map_of_mem _ hq
        exact hperm.mem_iff.mp h2

/-- Witness for C8 at the spec's example: declared orders `[2, 0, 1]` and
three supplied paths. -/
theorem C8_sliced_upload_witness :
    ∃ out2 uploaded,
      ArgoStep.upload_and_modify_sliced_output_artifact
        (fun l => { key := "k".toList, local_path := none }) "cloud".toList
        "s3".toList sliceOutputs "art"
        ["p0".toList, "p1".toList, "p2".toList] = .ok (out2, uploaded) ∧
      (∀ it ∈ [(⟨"f2".toList, 2⟩ : SliceItem), ⟨"f0".toList, 0⟩, ⟨"f1".toList, 1⟩],
        it.order < uploaded.length) ∧
      (∃ it ∈ [(⟨"f2".toList, 2⟩ : SliceItem), ⟨"f0".toList, 0⟩, ⟨"f1".toList, 1⟩],
        uploaded.length = it.order + 1) ∧
      (∀ pr ∈ (["p0".toList, "p1".toList, "p2".toList] : List PyStr).zip
          (List.insertionSort (fun a b => a.order ≤ b.order)
            [(⟨"f2".toList, 2⟩ : SliceItem), ⟨"f0".toList, 0⟩, ⟨"f1".toList, 1⟩]),
        uploaded.getD pr.2.order none = some pr.1) ∧
      (∀ idx, (∀ it ∈ [(⟨"f2".toList, 2⟩ : SliceItem), ⟨"f0".toList, 0⟩,
          ⟨"f1".toList, 1⟩], it.order ≠ idx) → uploaded.getD idx none = none) ∧
      (∃ art1, lookupField out2.artifacts "art" = some art1 ∧
        art1.s3 = some { key := ((fun (l : List (Option PyStr)) =>
          ({ key := "k".toList, local_path := none } : S3Artifact)) uploaded).key }) :=
  (C8_sliced_upload (fun l => { key := "k".toList, local_path := none })
    "cloud".toList "s3".toList sliceOutputs "art"
    ["p0".toList, "p1".toList, "p2".toList]).2.2
    [⟨"f2".toList, 2⟩, ⟨"f0".toList, 0⟩, ⟨"f1".toList, 1⟩] tarArt
    rfl rfl (by decide) (by decide) (by decide) rfl rfl

end Dflow
